import Mathlib

/-!
# Verification of the Lyricsync lyric-to-timeline alignment engine

Shallow embedding of the alignment core of `lyricsync.py` (text normalizer,
hybrid similarity scorer, greedy word-level aligner, timeline materializer,
segment-level aligner, and the two alignment-quality heuristics), together
with proofs and refutations of the specification claims.

Conventions of the embedding:
* Python strings are `List Char`; Python `float` is modelled as `ℚ`
  (the alignment code only adds, subtracts, multiplies, divides and
  compares, so exact rational arithmetic mirrors it; decimal literals such
  as `0.55` are embedded as the exact rationals they denote, `11/20`).
* Python list indices are `Nat`; `lst[-1]` style accesses that the source
  guards by non-emptiness checks become `List.getLast?` with the source's
  fallback.
* All functions are total, structurally recursive and executable, so
  concrete runs can be checked with `decide`.
-/

namespace Lyricsync

/-! ## Text utilities (`normalize_text`, `str.split`, `re.findall`)

`normalize_text` (lyricsync.py:350-354):
```
s = s.lower()
s = re.sub(r"[^a-z0-9'\s]", " ", s)
s = re.sub(r"\s+", " ", s).strip()
```
`Char.toLower` models `str.lower` (they agree on ASCII; a non-ASCII
character whose Python lowercase leaves the class `[a-z0-9'\s]` is replaced
by a space in both models).  `isWs` models the regex class `\s` on the
ASCII range (the normalized output alphabet is pure ASCII either way). -/

def isWs (c : Char) : Bool :=
  c = ' ' || c = '\t' || c = '\n' || c = '\r' || c = '\x0b' || c = '\x0c'

/-- Characters kept verbatim by the class `[^a-z0-9'\s]` substitution
(whitespace is also kept there; it is handled by `isWs`). -/
def keepCh (c : Char) : Bool :=
  ('a' ≤ c && c ≤ 'z') || ('0' ≤ c && c ≤ '9') || c = '\''

/-- One character of `re.sub(r"[^a-z0-9'\s]", " ", s)`. -/
def replStep (c : Char) : Char :=
  if keepCh c || isWs c then c else ' '

/-- `re.sub(r"\s+", " ", s)`: each maximal whitespace run becomes one
space.  The boolean flag records whether we are inside a run whose single
space was already emitted. -/
def subWs : List Char → Bool → List Char
  | [], _ => []
  | c :: rest, inRun =>
    if isWs c then
      if inRun then subWs rest true else ' ' :: subWs rest true
    else c :: subWs rest false

/-- Python `str.strip()`: drop leading and trailing whitespace. -/
def stripWs (l : List Char) : List Char :=
  ((l.dropWhile isWs).reverse.dropWhile isWs).reverse

/-- `normalize_text` (lyricsync.py:350-354). -/
def normalizeText (s : List Char) : List Char :=
  stripWs (subWs ((s.map Char.toLower).map replStep) false)

/-- Maximal runs of characters satisfying `p` (used for Python
`str.split()` with `p = !isWs` and `re.findall(r"[a-z0-9']+", ·)` with
`p = keepCh`).  `acc` holds the current run, reversed. -/
def runsAux (p : Char → Bool) : List Char → List Char → List (List Char)
  | [], acc => if acc = [] then [] else [acc.reverse]
  | c :: rest, acc =>
    if p c then runsAux p rest (c :: acc)
    else if acc = [] then runsAux p rest [] else acc.reverse :: runsAux p rest []

/-- Python `str.split()` (split on whitespace, dropping empties). -/
def pysplit (s : List Char) : List (List Char) :=
  runsAux (fun c => !isWs c) s []

/-- `_tokset` (lyricsync.py:772-773):
`set(re.findall(r"[a-z0-9']+", normalize_text(s)))`. -/
def tokset (s : List Char) : Finset (List Char) :=
  (runsAux keepCh (normalizeText s) []).toFinset

/-- `" ".join(tokens)` (the word aligner builds this incrementally and
strips it; normalized tokens carry no edge whitespace, so the result is
the plain join). -/
def joinToks (l : List (List Char)) : List Char :=
  List.intercalate [' '] l

/-! ### Normalizer facts used throughout -/

theorem subWs_chars {l : List Char} {b : Bool} :
    ∀ c ∈ subWs l b, c = ' ' ∨ (c ∈ l ∧ isWs c = false) := by
  induction l generalizing b with
  | nil => simp [subWs]
  | cons a rest ih =>
    intro c hc
    unfold subWs at hc
    by_cases ha : isWs a = true
    · rw [if_pos ha] at hc
      cases b with
      | true =>
        rw [if_pos rfl] at hc
        rcases ih c hc with h | ⟨h1, h2⟩
        · exact Or.inl h
        · exact Or.inr ⟨List.mem_cons_of_mem _ h1, h2⟩
      | false =>
        rw [if_neg (by simp)] at hc
        rcases List.mem_cons.1 hc with h | h
        · exact Or.inl h
        · rcases ih c h with h' | ⟨h1, h2⟩
          · exact Or.inl h'
          · exact Or.inr ⟨List.mem_cons_of_mem _ h1, h2⟩
    · rw [if_neg ha] at hc
      rcases List.mem_cons.1 hc with h | h
      · subst h
        exact Or.inr ⟨List.mem_cons_self _ _, by simpa using ha⟩
      · rcases ih c h with h' | ⟨h1, h2⟩
        · exact Or.inl h'
        · exact Or.inr ⟨List.mem_cons_of_mem _ h1, h2⟩

theorem stripWs_sublist (l : List Char) : (stripWs l).Sublist l := by
  unfold stripWs
  have h1 : (l.dropWhile isWs).Sublist l := List.dropWhile_sublist _
  have h2 : ((l.dropWhile isWs).reverse.dropWhile isWs).Sublist
      (l.dropWhile isWs).reverse := List.dropWhile_sublist _
  have h3 := h2.reverse
  simp only [List.reverse_reverse] at h3
  exact h3.trans h1

theorem normalizeText_chars {s : List Char} :
    ∀ c ∈ normalizeText s, keepCh c = true ∨ c = ' ' := by
  intro c hc
  unfold normalizeText at hc
  have hc' := (stripWs_sublist _).mem hc
  rcases subWs_chars c hc' with h | ⟨h1, h2⟩
  · exact Or.inr h
  · rcases List.mem_map.1 h1 with ⟨a, _, rfl⟩
    unfold replStep at h2 ⊢
    by_cases hk : (keepCh a || isWs a) = true
    · rw [if_pos hk] at h2 ⊢
      rcases Bool.or_eq_true_iff.1 hk with h3 | h3
      · exact Or.inl h3
      · rw [h3] at h2; cases h2
    · rw [if_neg hk]
      exact Or.inr rfl

/-- Relation: no two adjacent whitespace characters. -/
def noWsPair (x y : Char) : Prop := ¬(isWs x = true ∧ isWs y = true)

theorem noWsPair_flip : flip noWsPair = noWsPair := by
  funext x y
  unfold flip noWsPair
  exact propext ⟨fun h ⟨a, b⟩ => h ⟨b, a⟩, fun h ⟨a, b⟩ => h ⟨b, a⟩⟩

theorem subWs_true_head {l : List Char} :
    ∀ c ∈ (subWs l true).head?, isWs c = false := by
  induction l with
  | nil => simp [subWs]
  | cons a rest ih =>
    intro c hc
    unfold subWs at hc
    by_cases ha : isWs a = true
    · rw [if_pos ha, if_pos rfl] at hc
      exact ih c hc
    · rw [if_neg ha] at hc
      simp only [Option.mem_def, List.head?_cons, Option.some.injEq] at hc
      subst hc
      simpa using ha

theorem subWs_chain' {l : List Char} {b : Bool} :
    List.Chain' noWsPair (subWs l b) := by
  induction l generalizing b with
  | nil => simp [subWs]
  | cons a rest ih =>
    unfold subWs
    by_cases ha : isWs a = true
    · rw [if_pos ha]
      cases b with
      | true => rw [if_pos rfl]; exact ih
      | false =>
        rw [if_neg (by simp)]
        refine List.chain'_cons'.2 ⟨?_, ih⟩
        intro y hy
        have := subWs_true_head y hy
        exact fun ⟨_, h2⟩ => by rw [this] at h2; cases h2
    · rw [if_neg ha]
      refine List.chain'_cons'.2 ⟨?_, ih⟩
      intro y _
      exact fun ⟨h1, _⟩ => ha h1

theorem subWs_ws_eq_space {l : List Char} {b : Bool} :
    ∀ c ∈ subWs l b, isWs c = true → c = ' ' := by
  intro c hc hw
  rcases subWs_chars c hc with h | ⟨_, h2⟩
  · exact h
  · rw [hw] at h2; cases h2

theorem stripWs_eq_rdropWhile (l : List Char) :
    stripWs l = (l.dropWhile isWs).rdropWhile isWs := rfl

theorem stripWs_chain' {l : List Char}
    (h : List.Chain' noWsPair l) : List.Chain' noWsPair (stripWs l) := by
  rw [stripWs_eq_rdropWhile]
  exact List.Chain'.prefix (h.suffix (List.dropWhile_suffix _))
    ( List.rdropWhile_prefix _ _)

theorem stripWs_head {l : List Char} :
    ∀ c ∈ (stripWs l).head?, isWs c = false := by
  intro c hc
  rw [stripWs_eq_rdropWhile] at hc
  set d := l.dropWhile isWs with hd
  rcases ( List.rdropWhile_prefix isWs d) with ⟨tl, htl⟩
  by_cases hnil : d.rdropWhile isWs = []
  · rw [hnil] at hc; cases hc
  · have : d.head? = some c := by
      rw [← htl, List.head?_append_of_ne_nil _ hnil]
      exact Option.mem_def.1 hc
    have hnw := List.head?_dropWhile_not isWs l
    rw [← hd, this] at hnw
    exact hnw

theorem stripWs_getLast {l : List Char} :
    ∀ c ∈ (stripWs l).getLast?, isWs c = false := by
  intro c hc
  rw [stripWs_eq_rdropWhile] at hc
  by_cases hnil : (l.dropWhile isWs).rdropWhile isWs = []
  · rw [hnil] at hc; cases hc
  · have := List.rdropWhile_last_not isWs (l.dropWhile isWs) hnil
    rw [List.getLast?_eq_getLast _ hnil] at hc
    have hce : ((l.dropWhile isWs).rdropWhile isWs).getLast hnil = c :=
      Option.some.inj (Option.mem_def.1 hc)
    rw [hce] at this
    simpa using this

/-- On a list with no adjacent whitespace, whose whitespace characters are
all `' '`, and (when the flag is set) whose head is not whitespace, the
whitespace-collapsing pass is the identity. -/
theorem subWs_eq_self {l : List Char} {b : Bool}
    (hch : List.Chain' noWsPair l)
    (hsp : ∀ c ∈ l, isWs c = true → c = ' ')
    (hhd : b = true → ∀ c ∈ l.head?, isWs c = false) :
    subWs l b = l := by
  induction l generalizing b with
  | nil => simp [subWs]
  | cons a rest ih =>
    unfold subWs
    by_cases ha : isWs a = true
    · cases b with
      | true =>
        exact absurd ha (by simpa using hhd rfl a (by simp))
      | false =>
        rw [if_pos ha, if_neg (by simp)]
        have ha' : a = ' ' := hsp a (by simp) ha
        rw [ha']
        congr 1
        refine ih (hch.tail) (fun c hc hw => hsp c (List.mem_cons_of_mem _ hc) hw) ?_
        intro _ c hc
        have hrel := (List.chain'_cons'.1 hch).1 c hc
        by_contra hcon
        exact hrel ⟨ha, by simpa using hcon⟩
    · rw [if_neg ha]
      congr 1
      exact ih hch.tail (fun c hc hw => hsp c (List.mem_cons_of_mem _ hc) hw)
        (fun h => by cases h)

theorem stripWs_eq_self {l : List Char}
    (hhd : ∀ c ∈ l.head?, isWs c = false)
    (hlast : ∀ c ∈ l.getLast?, isWs c = false) :
    stripWs l = l := by
  unfold stripWs
  have h1 : l.dropWhile isWs = l := by
    cases l with
    | nil => simp
    | cons a rest =>
      rw [List.dropWhile_cons, if_neg]
      simp only [hhd a (by simp), Bool.false_eq_true, not_false_eq_true]
  rw [h1]
  have h2 : l.reverse.dropWhile isWs = l.reverse := by
    cases hrev : l.reverse with
    | nil => simp
    | cons a rest =>
      rw [List.dropWhile_cons, if_neg]
      have : a ∈ l.getLast? := by
        rw [← List.head?_reverse, hrev]; simp
      simp only [hlast a this, Bool.false_eq_true, not_false_eq_true]
  rw [h2, List.reverse_reverse]

theorem toLower_of_keep {c : Char} (h : keepCh c = true ∨ c = ' ') :
    c.toLower = c := by
  rcases h with h | rfl
  · unfold keepCh at h
    simp only [Bool.or_eq_true, Bool.and_eq_true, decide_eq_true_eq] at h
    unfold Char.toLower
    rw [if_neg]
    rcases h with (⟨h1, h2⟩ | ⟨h1, h2⟩) | h1
    · rw [Char.le_def, UInt32.le_def, BitVec.le_def] at h1 h2
      have g1 : (97 : Nat) ≤ c.toNat := h1
      have g2 : c.toNat ≤ 122 := h2
      omega
    · rw [Char.le_def, UInt32.le_def, BitVec.le_def] at h1 h2
      have g1 : (48 : Nat) ≤ c.toNat := h1
      have g2 : c.toNat ≤ 57 := h2
      omega
    · have : c = '\'' := by simpa using h1
      subst this
      decide
  · decide

theorem replStep_of_keep {c : Char} (h : keepCh c = true ∨ c = ' ') :
    replStep c = c := by
  unfold replStep
  rcases h with h | rfl
  · rw [if_pos (by simp [h])]
  · rw [if_pos (by rw [Bool.or_eq_true]; right; decide)]

theorem map_eq_self_of_fixed {l : List α} {f : α → α}
    (h : ∀ c ∈ l, f c = c) : l.map f = l := by
  induction l with
  | nil => rfl
  | cons a rest ih =>
    simp only [List.map_cons, h a (by simp), List.cons.injEq, true_and]
    exact ih fun c hc => h c (List.mem_cons_of_mem _ hc)

/-- C4 core fact: `normalize_text` is idempotent. -/
theorem normalizeText_idem (s : List Char) :
    normalizeText (normalizeText s) = normalizeText s := by
  set t := normalizeText s with ht
  have hchars : ∀ c ∈ t, keepCh c = true ∨ c = ' ' := normalizeText_chars
  have h1 : t.map Char.toLower = t :=
    map_eq_self_of_fixed fun c hc => toLower_of_keep (hchars c hc)
  have h2 : t.map replStep = t :=
    map_eq_self_of_fixed fun c hc => replStep_of_keep (hchars c hc)
  have hchain : List.Chain' noWsPair t := by
    rw [ht]; unfold normalizeText
    exact stripWs_chain' subWs_chain'
  have hsp : ∀ c ∈ t, isWs c = true → c = ' ' := by
    intro c hc hw
    rcases hchars c hc with hk | h
    · unfold isWs at hw
      simp only [Bool.or_eq_true, decide_eq_true_eq] at hw
      rcases hw with (((((rfl | rfl) | rfl) | rfl) | rfl) | rfl) <;>
        exact absurd hk (by decide)
    · exact h
  have hhd : ∀ c ∈ t.head?, isWs c = false := by
    rw [ht]; unfold normalizeText; exact stripWs_head
  have hlast : ∀ c ∈ t.getLast?, isWs c = false := by
    rw [ht]; unfold normalizeText; exact stripWs_getLast
  calc normalizeText t
      = stripWs (subWs ((t.map Char.toLower).map replStep) false) := rfl
    _ = stripWs (subWs t false) := by rw [h1, h2]
    _ = stripWs t := by rw [subWs_eq_self hchain hsp (fun h => by cases h)]
    _ = t := stripWs_eq_self hhd hlast

/-! ## `difflib.SequenceMatcher.ratio` (Ratcliff–Obershelp)

`_hybrid_score` (lyricsync.py:592-599) calls
`SequenceMatcher(None, a_n, b_n).ratio()` from the Python standard
library.  We embed the library algorithm: `find_longest_match` via the
row-by-row `j2len` dynamic program, `get_matching_blocks` as a recursion
on sub-ranges (only the total match count matters for `ratio`), and
`ratio = 2*matches/(len(a)+len(b))`, `1.0` when both strings are empty
(`difflib._calculate_ratio`).  The `autojunk` heuristic of the library
only alters behaviour for strings of length ≥ 200 and is not modelled
(the spec leaves the exact character-ratio metric open). -/

/-- One row of the `j2len` dynamic program of `find_longest_match`:
`row[idx] = prev[idx-1] + 1` if `bs[idx]` equals the current `a`
character, else `0`.  `ps` is the previous row shifted by one (callers
pass `0 :: prev`). -/
def rowStep (ai : Char) : List Char → List Nat → List Nat
  | [], _ => []
  | c :: cs, ps => (if c = ai then ps.headD 0 + 1 else 0) :: rowStep ai cs ps.tail

/-- Scan one `j2len` row in increasing column order, updating the best
block `(besti, bestj, bestsize)` whenever a strictly longer run ends at
`(i, j)` (Python: `if k > bestsize: besti, bestj, bestsize = i-k+1,
j-k+1, k`). -/
def scanRow (i : Nat) : List Nat → Nat → Nat × Nat × Nat → Nat × Nat × Nat
  | [], _, best => best
  | k :: ks, j, best =>
    scanRow i ks (j + 1)
      (if best.2.2 < k then (i + 1 - k, j + 1 - k, k) else best)

/-- Outer loop of `find_longest_match` over the `a`-side characters. -/
def flmLoop (bs : List Char) (blo : Nat) :
    List Char → Nat → List Nat → Nat × Nat × Nat → Nat × Nat × Nat
  | [], _, _, best => best
  | ai :: as', i, prev, best =>
    let row := rowStep ai bs (0 :: prev)
    flmLoop bs blo as' (i + 1) row (scanRow i row blo best)

/-- `SequenceMatcher.find_longest_match(alo, ahi, blo, bhi)` restricted
to what `ratio` needs: the triple `(i, j, size)` of the leftmost longest
matching block, initialised to `(alo, blo, 0)`. -/
def flm (a b : List Char) (alo ahi blo bhi : Nat) : Nat × Nat × Nat :=
  let as' := (a.drop alo).take (ahi - alo)
  let bs := (b.drop blo).take (bhi - blo)
  flmLoop bs blo as' alo (List.replicate bs.length 0) (alo, blo, 0)

/-- Total size of all matching blocks of `get_matching_blocks` on the
range `[alo,ahi) × [blo,bhi)`: recursively the blocks left of, plus, and
right of the longest match.  The fuel argument dominates the recursion
depth; `seqMatches` supplies enough for the recursion never to be cut. -/
def rMatches (a b : List Char) : Nat → Nat → Nat → Nat → Nat → Nat
  | 0, _, _, _, _ => 0
  | fuel + 1, alo, ahi, blo, bhi =>
    let r := flm a b alo ahi blo bhi
    if r.2.2 = 0 then 0
    else
      rMatches a b fuel alo r.1 blo r.2.1 +
        r.2.2 + rMatches a b fuel (r.1 + r.2.2) ahi (r.2.1 + r.2.2) bhi

/-- `matches` of `SequenceMatcher.ratio`: the summed block sizes over the
whole strings. -/
def seqMatches (a b : List Char) : Nat :=
  rMatches a b (a.length + b.length + 1) 0 a.length 0 b.length

/-- `SequenceMatcher.ratio()`: `2*matches/(len(a)+len(b))`, or `1.0`
when both strings are empty. -/
def smRatio (a b : List Char) : ℚ :=
  if a.length + b.length = 0 then 1
  else 2 * (seqMatches a b : ℚ) / (a.length + b.length : ℕ)

/-! ### Bounds on the match count -/

theorem rowStep_length (ai : Char) :
    ∀ (bs : List Char) (ps : List Nat), (rowStep ai bs ps).length = bs.length := by
  intro bs
  induction bs with
  | nil => intro ps; rfl
  | cons c cs ih => intro ps; simp [rowStep, ih]

theorem rowStep_getD (ai : Char) :
    ∀ (bs : List Char) (ps : List Nat) (idx : Nat),
      (rowStep ai bs ps).getD idx 0 ≤ ps.getD idx 0 + 1 := by
  intro bs
  induction bs with
  | nil => intro ps idx; simp [rowStep]
  | cons c cs ih =>
    intro ps idx
    cases idx with
    | zero =>
      simp only [rowStep, List.getD_cons_zero]
      split
      · cases ps <;> simp [List.headD]
      · omega
    | succ m =>
      simp only [rowStep, List.getD_cons_succ]
      calc (rowStep ai cs ps.tail).getD m 0 ≤ ps.tail.getD m 0 + 1 := ih _ _
        _ ≤ ps.getD (m + 1) 0 + 1 := by cases ps <;> simp [List.getD]

/-- Row bound: after `m` rows every entry of the current row is at most
`min (idx+1) m`. -/
def RowBound (r : List Nat) (m : Nat) : Prop :=
  ∀ idx : Nat, r.getD idx 0 ≤ min (idx + 1) m

theorem rowBound_replicate (n : Nat) : RowBound (List.replicate n 0) 0 := by
  intro idx
  rcases Nat.lt_or_ge idx n with h | h
  · rw [List.getD_eq_getElem?_getD, List.getElem?_replicate, if_pos h]
    simp
  · rw [List.getD_eq_getElem?_getD, List.getElem?_eq_none (by simpa using h)]
    simp

theorem rowBound_step {prev : List Nat} {m : Nat} (hp : RowBound prev m)
    (ai : Char) (bs : List Char) :
    RowBound (rowStep ai bs (0 :: prev)) (m + 1) := by
  intro idx
  have h1 := rowStep_getD ai bs (0 :: prev) idx
  cases idx with
  | zero =>
    simp only [List.getD_cons_zero] at h1
    omega
  | succ k =>
    simp only [List.getD_cons_succ] at h1
    have h2 := hp k
    omega

/-- The best-block candidate respects the search rectangle. -/
def BestInv (alo blo jmax n : Nat) (r : Nat × Nat × Nat) : Prop :=
  alo ≤ r.1 ∧ r.1 + r.2.2 ≤ n ∧ blo ≤ r.2.1 ∧ r.2.1 + r.2.2 ≤ jmax

theorem scanRow_inv {alo blo jmax i : Nat} (hi : alo ≤ i + 1) :
    ∀ (ks : List Nat) (j : Nat) (best : Nat × Nat × Nat),
      BestInv alo blo jmax (i + 1) best →
      (∀ t, ks.getD t 0 ≤ min (j + 1 + t - blo) (i + 1 - alo)) →
      j + ks.length ≤ jmax →
      blo ≤ j →
      BestInv alo blo jmax (i + 1) (scanRow i ks j best) := by
  intro ks
  induction ks with
  | nil => intro j best hb _ _ _; exact hb
  | cons k ks' ih =>
    intro j best hb hcol hlen hj
    unfold scanRow
    refine ih (j + 1) _ ?_ ?_ ?_ ?_
    · split
      · have h0 := hcol 0
        simp only [List.getD_cons_zero] at h0
        rcases hb with ⟨b1, b2, b3, b4⟩
        simp only [List.length_cons] at hlen
        refine ⟨?_, ?_, ?_, ?_⟩ <;> dsimp only [BestInv] <;> omega
      · exact hb
    · intro t
      have := hcol (t + 1)
      simp only [List.getD_cons_succ] at this
      calc ks'.getD t 0 ≤ min (j + 1 + (t + 1) - blo) (i + 1 - alo) := this
        _ ≤ min (j + 1 + 1 + t - blo) (i + 1 - alo) := by omega
    · simp only [List.length_cons] at hlen; omega
    · omega

theorem flmLoop_inv {alo blo : Nat} (bs : List Char) :
    ∀ (as' : List Char) (i : Nat) (prev : List Nat) (best : Nat × Nat × Nat),
      alo ≤ i →
      prev.length = bs.length →
      RowBound prev (i - alo) →
      BestInv alo blo (blo + bs.length) i best →
      BestInv alo blo (blo + bs.length) (i + as'.length)
        (flmLoop bs blo as' i prev best) := by
  intro as'
  induction as' with
  | nil =>
    intro i prev best _ _ _ hb
    simpa [flmLoop] using hb
  | cons ai rest ih =>
    intro i prev best hi hlen hrow hb
    unfold flmLoop
    have hrow' : RowBound (rowStep ai bs (0 :: prev)) (i - alo + 1) :=
      rowBound_step hrow ai bs
    have hlen' : (rowStep ai bs (0 :: prev)).length = bs.length :=
      rowStep_length ai bs (0 :: prev)
    have hb' : BestInv alo blo (blo + bs.length) (i + 1)
        (scanRow i (rowStep ai bs (0 :: prev)) blo best) := by
      refine scanRow_inv (by omega) _ blo best ?_ ?_ ?_ le_rfl
      · rcases hb with ⟨b1, b2, b3, b4⟩
        exact ⟨b1, by omega, b3, b4⟩
      · intro t
        have := hrow' t
        have : (rowStep ai bs (0 :: prev)).getD t 0 ≤ min (t + 1) (i - alo + 1) :=
          this
        calc (rowStep ai bs (0 :: prev)).getD t 0
            ≤ min (t + 1) (i - alo + 1) := this
          _ ≤ min (blo + 1 + t - blo) (i + 1 - alo) := by omega
      · rw [hlen']
    have := ih (i + 1) _ _ (by omega)
      hlen' (by have he : i + 1 - alo = (i - alo) + 1 := by omega
                rw [he]; exact hrow') hb'
    simpa [Nat.add_comm, Nat.add_assoc, Nat.add_left_comm] using this

theorem flm_post (a b : List Char) (alo ahi blo bhi : Nat) :
    BestInv alo blo (blo + ((b.drop blo).take (bhi - blo)).length)
      (alo + ((a.drop alo).take (ahi - alo)).length)
      (flm a b alo ahi blo bhi) := by
  unfold flm
  exact flmLoop_inv _ _ alo _ _ le_rfl (by simp)
    (by simp only [Nat.sub_self]; exact rowBound_replicate _)
    ⟨le_rfl, by simp, le_rfl, by simp⟩

theorem rMatches_le (a b : List Char) :
    ∀ (fuel alo ahi blo bhi : Nat),
      rMatches a b fuel alo ahi blo bhi ≤ ahi - alo ∧
        rMatches a b fuel alo ahi blo bhi ≤ bhi - blo := by
  intro fuel
  induction fuel with
  | zero => intro alo ahi blo bhi; simp [rMatches]
  | succ n ih =>
    intro alo ahi blo bhi
    unfold rMatches
    set r := flm a b alo ahi blo bhi with hr
    by_cases h0 : r.2.2 = 0
    · rw [if_pos h0]; omega
    · rw [if_neg h0]
      have hp := flm_post a b alo ahi blo bhi
      rw [← hr] at hp
      rcases hp with ⟨p1, p2, p3, p4⟩
      have hta : ((a.drop alo).take (ahi - alo)).length ≤ ahi - alo := by
        simp
      have htb : ((b.drop blo).take (bhi - blo)).length ≤ bhi - blo := by
        simp
      have ⟨l1, l2⟩ := ih alo r.1 blo r.2.1
      have ⟨r1, r2⟩ := ih (r.1 + r.2.2) ahi (r.2.1 + r.2.2) bhi
      omega

theorem two_mul_seqMatches_le (a b : List Char) :
    2 * seqMatches a b ≤ a.length + b.length := by
  have := rMatches_le a b (a.length + b.length + 1) 0 a.length 0 b.length
  unfold seqMatches
  omega

theorem smRatio_nonneg (a b : List Char) : 0 ≤ smRatio a b := by
  unfold smRatio
  split
  · norm_num
  · have hd : (0 : ℚ) < ((a.length + b.length : ℕ) : ℚ) := by
      have : a.length + b.length ≠ 0 := by assumption
      exact_mod_cast Nat.pos_of_ne_zero this
    positivity

theorem smRatio_le_one (a b : List Char) : smRatio a b ≤ 1 := by
  unfold smRatio
  split
  · exact le_refl 1
  · rename_i h
    have hd : (0 : ℚ) < ((a.length + b.length : ℕ) : ℚ) := by
      exact_mod_cast Nat.pos_of_ne_zero h
    rw [div_le_one hd]
    have h2 : ((2 * seqMatches a b : ℕ) : ℚ) ≤ ((a.length + b.length : ℕ) : ℚ) := by
      exact_mod_cast two_mul_seqMatches_le a b
    push_cast at h2 ⊢
    linarith

/-! ## Data model (lyricsync.py:362-381)

The `Word` and `Seg` dataclasses; their Python field `end` is a Lean
keyword, so here it is named `stop`. -/

structure Word where
  text : List Char
  start : ℚ
  stop : ℚ
  deriving DecidableEq, Repr

structure Seg where
  text : List Char
  start : ℚ
  stop : ℚ
  deriving DecidableEq, Repr

structure MatchSpan where
  line_index : Nat
  start_word : Nat
  end_word : Nat
  score : ℚ
  deriving DecidableEq, Repr

/-- One output tuple `(len(out) or line_idx, line_idx, start, end, text)`
of the materializer / segment aligner. -/
abbrev TLine : Type := Nat × Nat × ℚ × ℚ × List Char

def tlStart (t : TLine) : ℚ := t.2.2.1

def tlEnd (t : TLine) : ℚ := t.2.2.2.1

set_option synthInstance.maxSize 512 in
instance : DecidableEq (List TLine) := inferInstance

/-! ## `_hybrid_score` (lyricsync.py:592-599) -/

/-- `_hybrid_score(a, b)`:
```
if not a or not b: return 0.0
a_n, b_n = normalize_text(a), normalize_text(b)
char = SequenceMatcher(None, a_n, b_n).ratio()
A, B = _tokset(a_n), _tokset(b_n)
tok = (len(A & B) / (len(A | B) or 1)) if (A or B) else 0.0
return 0.5 * char + 0.5 * tok
```
Note the guard tests the raw strings for emptiness, not the normalized
ones. -/
def hybridScore (a b : List Char) : ℚ :=
  if a = [] ∨ b = [] then 0
  else
    let a_n := normalizeText a
    let b_n := normalizeText b
    let char := smRatio a_n b_n
    let A := tokset a_n
    let B := tokset b_n
    let tok : ℚ :=
      if A = ∅ ∧ B = ∅ then 0
      else (((A ∩ B).card : ℚ)) / (if (A ∪ B).card = 0 then 1 else ((A ∪ B).card : ℚ))
    1/2 * char + 1/2 * tok

theorem hybridScore_nonneg (a b : List Char) : 0 ≤ hybridScore a b := by
  unfold hybridScore
  split
  · exact le_refl 0
  · have hc := smRatio_nonneg (normalizeText a) (normalizeText b)
    have htok : (0 : ℚ) ≤
        (if tokset (normalizeText a) = ∅ ∧ tokset (normalizeText b) = ∅ then 0
         else (((tokset (normalizeText a) ∩ tokset (normalizeText b)).card : ℚ)) /
           (if (tokset (normalizeText a) ∪ tokset (normalizeText b)).card = 0 then 1
            else (((tokset (normalizeText a) ∪ tokset (normalizeText b)).card : ℚ)))) := by
      split
      · exact le_refl 0
      · apply div_nonneg
        · positivity
        · split
          · norm_num
          · positivity
    dsimp only
    linarith

theorem hybridScore_le_one (a b : List Char) : hybridScore a b ≤ 1 := by
  unfold hybridScore
  split
  · norm_num
  · have hc := smRatio_le_one (normalizeText a) (normalizeText b)
    set A := tokset (normalizeText a) with hA
    set B := tokset (normalizeText b) with hB
    have htok : (if A = ∅ ∧ B = ∅ then (0 : ℚ)
        else ((A ∩ B).card : ℚ) /
          (if (A ∪ B).card = 0 then 1 else ((A ∪ B).card : ℚ))) ≤ 1 := by
      split
      · norm_num
      · rename_i hne
        by_cases hu : (A ∪ B).card = 0
        · rw [if_pos hu]
          have : (A ∩ B).card ≤ (A ∪ B).card :=
            Finset.card_le_card Finset.inter_subset_union
          rw [hu] at this
          interval_cases h : (A ∩ B).card
          simp
        · rw [if_neg hu]
          have hcard : (A ∩ B).card ≤ (A ∪ B).card :=
            Finset.card_le_card Finset.inter_subset_union
          rw [div_le_one (by exact_mod_cast Nat.pos_of_ne_zero hu)]
          exact_mod_cast hcard
    dsimp only
    linarith

/-! ## `greedy_align_lines_to_words` (lyricsync.py:601-705)

The keyword parameters are fixed at their defaults (the spec documents
the function through its defaults; no caller overrides them):
`min_window=2, max_window_extra=6, early_break=60, backtrack=3,
lookahead=30, jump_penalty=0.002, accept_thresh=0.55,
strong_thresh=0.78`. -/

def minWindow : Nat := 2

def maxWindowExtra : Nat := 6

def earlyBreak : Nat := 60

def backtrack : Nat := 3

def lookahead : Nat := 30

def jumpPenalty : ℚ := 1/500

def acceptThresh : ℚ := 11/20

def strongThresh : ℚ := 39/50

/-- `abs(start - cur_idx)` for `Nat` operands. -/
def natDist (a b : Nat) : Nat := max a b - min a b

/-- Inner window loop (`for win in range(win_min, win_max + 1)`): builds
the joined candidate (`" ".join(asr_tokens[start:end])`, the incremental
build in the source with a final strip is equal because normalized
tokens are non-empty with no edge whitespace), scores it, keeps the best
strictly-improving candidate, and breaks once
`base >= strong_thresh and start >= cur_idx`.  `best` is
`(best_score, best_start, best_end)`. -/
def scanWins (toks : List (List Char)) (nl : List Char) (cur start : Nat) :
    List Nat → ℚ × Nat × Nat → ℚ × Nat × Nat
  | [], best => best
  | win :: ws, best =>
    let e := start + win
    let joined := joinToks ((toks.drop start).take win)
    if joined = [] then scanWins toks nl cur start ws best
    else
      let base := hybridScore joined nl
      let score := base - jumpPenalty * (natDist start cur : ℚ)
      let best' := if best.1 < score then (score, start, e) else best
      if strongThresh ≤ base ∧ cur ≤ start then best'
      else scanWins toks nl cur start ws best'

/-- Outer start loop (`for start in range(start_lo, start_hi + 1)`) with
the distance early-break (`start - cur_idx > early_break and
best_score >= 0.60`). -/
def scanStarts (toks : List (List Char)) (n : Nat) (nl : List Char)
    (cur tgt : Nat) : List Nat → ℚ × Nat × Nat → ℚ × Nat × Nat
  | [], best => best
  | start :: ss, best =>
    if cur + earlyBreak < start ∧ (3/5 : ℚ) ≤ best.1 then best
    else
      let wmin := max minWindow (tgt - 3)
      let wmax := min (tgt + maxWindowExtra) (n - start)
      let best' := scanWins toks nl cur start
        (List.range' wmin (wmax + 1 - wmin)) best
      scanStarts toks n nl cur tgt ss best'

/-- Exhausted-input stub fill: once an accepted span advances the cursor
to the end of the token list, every remaining line gets a zero-length
span at the final cursor with score `0.0`. -/
def stubFill (e : Nat) : List (List Char) → Nat → List MatchSpan × List ℚ
  | [], _ => ([], [])
  | _ :: rest, li =>
    let r := stubFill e rest (li + 1)
    (⟨li, e, e, 0⟩ :: r.1, 0 :: r.2)

/-- The per-line loop of `greedy_align_lines_to_words` (only entered
when the filtered token list is non-empty). -/
def greedyLoop (toks : List (List Char)) (n : Nat) :
    List (List Char) → Nat → Nat → List MatchSpan × List ℚ
  | [], _, _ => ([], [])
  | line :: rest, li, cur =>
    let nl := normalizeText line
    if nl = [] then
      -- blank lyric line: zero-length span at the cursor, score 1.0
      let r := greedyLoop toks n rest (li + 1) cur
      (⟨li, cur, cur, 1⟩ :: r.1, 1 :: r.2)
    else
      let tgt := max (pysplit nl).length minWindow
      let lo := cur - backtrack
      let hi := min (n - 1) (cur + lookahead)
      let b := scanStarts toks n nl cur tgt
        (List.range' lo (hi + 1 - lo)) (-1, cur, cur)
      if acceptThresh ≤ b.1 then
        let be := if b.2.2 ≤ b.2.1 then min (b.2.1 + max minWindow 1) n else b.2.2
        if n ≤ be then
          let r := stubFill be rest (li + 1)
          (⟨li, b.2.1, be, b.1⟩ :: r.1, b.1 :: r.2)
        else
          let r := greedyLoop toks n rest (li + 1) be
          (⟨li, b.2.1, be, b.1⟩ :: r.1, b.1 :: r.2)
      else
        let ew := min (cur + max minWindow 1) n
        let r := greedyLoop toks n rest (li + 1) ew
        (⟨li, cur, ew, max 0 b.1⟩ :: r.1, max 0 b.1 :: r.2)

/-- The trailing safety loop (lyricsync.py:699-703): pad with zero-length
stubs at the last span's `end_word` until one span per line (provably a
no-op, but embedded for fidelity). -/
def padSpans (target : Nat) (r : List MatchSpan × List ℚ) :
    List MatchSpan × List ℚ :=
  let le := (match r.1.getLast? with | some s => s.end_word | none => 0)
  (r.1 ++ (List.range' r.1.length (target - r.1.length)).map
      (fun li => ⟨li, le, le, 0⟩),
   r.2 ++ List.replicate (target - r.1.length) 0)

/-- Filtered, normalized ASR token list
(`[t for t in (normalize_text(w.text) for w in words) if t]`). -/
def asrTokens (words : List Word) : List (List Char) :=
  (words.map (fun w => normalizeText w.text)).filter (fun t => ¬t = [])

/-- `greedy_align_lines_to_words(words, lyric_lines)` at the default
parameters. -/
def greedyAlign (words : List Word) (lyric_lines : List (List Char)) :
    List MatchSpan × List ℚ :=
  let toks := asrTokens words
  let n := toks.length
  if n = 0 then
    ((List.range lyric_lines.length).map (fun li => ⟨li, 0, 0, 0⟩),
     List.replicate lyric_lines.length 0)
  else
    padSpans lyric_lines.length (greedyLoop toks n lyric_lines 0 0)

/-! ## `word_spans_to_timed_lines` (lyricsync.py:708-766)

The only place the source can raise for in-range word indices is
`lyric_lines[li]` with a span's `line_index`; the embedding surfaces
that as `Option` via `List.get?`. -/

/-- Emergency spread for an empty word list: each line gets
`max(0.5, min_dur_s)` seconds, with `0.1`-second gaps. -/
def emergencySpread (min_dur_s : ℚ) : List (List Char) → Nat → ℚ → List TLine
  | [], _, _ => []
  | line :: ls, i, t =>
    let e := t + max (1/2) min_dur_s
    (i, i, t, e, line) :: emergencySpread min_dur_s ls (i + 1) (e + 1/10)

/-- The `(start_time, end_time)` computation of one span (before the
final clamp), following the three branches of the source. -/
def spanRawTimes (word_starts word_ends : List ℚ) (n : Nat)
    (pad_s min_gap_s min_dur_s lastEnd : ℚ) (sp : MatchSpan) : ℚ × ℚ :=
  let s := min sp.start_word n
  let e := min sp.end_word n
  if s < n then
    if e ≤ s then
      let anchor := word_starts.getD s 0
      let st := max (anchor - pad_s) (lastEnd + min_gap_s)
      (st, max (st + min_dur_s) (st + min_gap_s))
    else
      let st := max (word_starts.getD s 0 - pad_s) (lastEnd + min_gap_s)
      (st, max (word_ends.getD (max (e - 1) s) 0 + pad_s) (st + min_dur_s))
  else
    let st := max (lastEnd + min_gap_s) 0
    (st, st + max min_dur_s min_gap_s)

/-- One span's final `(start_time, end_time)` after the clamp
`start = min(start, max(total-gap, 0))`;
`end = min(max(end, start+gap), total)`. -/
def spanTimes (word_starts word_ends : List ℚ) (n : Nat)
    (total pad_s min_gap_s min_dur_s lastEnd : ℚ) (sp : MatchSpan) : ℚ × ℚ :=
  let r := spanRawTimes word_starts word_ends n pad_s min_gap_s min_dur_s lastEnd sp
  let st := min r.1 (max (total - min_gap_s) 0)
  (st, min (max r.2 (st + min_gap_s)) total)

/-- The span loop; `k` is `len(out)` (the running first tuple field). -/
def wstlLoop (lyric_lines : List (List Char)) (word_starts word_ends : List ℚ)
    (n : Nat) (total pad_s min_gap_s min_dur_s : ℚ) :
    List MatchSpan → Nat → ℚ → Option (List TLine)
  | [], _, _ => some []
  | sp :: sps, k, lastEnd => do
    let text ← lyric_lines.get? sp.line_index
    let t := spanTimes word_starts word_ends n total pad_s min_gap_s min_dur_s
      lastEnd sp
    let rest ← wstlLoop lyric_lines word_starts word_ends n total pad_s
      min_gap_s min_dur_s sps (k + 1) t.2
    some ((k, sp.line_index, t.1, t.2, text) :: rest)

/-- `total_dur = word_ends[-1] if word_ends else 0.0`: the last word's
end time. -/
def totalDur (words : List Word) : ℚ :=
  ((words.map (·.stop)).getLast?).getD 0

/-- `word_spans_to_timed_lines(words, lyric_lines, spans, pad_s,
min_gap_s, min_dur_s)`; defaults `pad_s=0.02, min_gap_s=0.08,
min_dur_s=0.75`. -/
def wordSpansToTimedLines (words : List Word) (lyric_lines : List (List Char))
    (spans : List MatchSpan) (pad_s min_gap_s min_dur_s : ℚ) :
    Option (List TLine) :=
  if words = [] then some (emergencySpread min_dur_s lyric_lines 0 0)
  else
    let word_starts := words.map (·.start)
    let word_ends := words.map (·.stop)
    wstlLoop lyric_lines word_starts word_ends words.length (totalDur words)
      pad_s min_gap_s min_dur_s spans 0 0

/-! ## `align_lines_to_segments` (lyricsync.py:776-876)

Search parameters fixed at their defaults: `window_back=2,
window_ahead=6, max_merge=3, jump_penalty=0.04, accept_thresh=0.55,
strong_thresh=0.78`; `pad_s` and `min_gap_s` stay parameters. -/

def windowBack : Nat := 2

def windowAhead : Nat := 6

def maxMerge : Nat := 3

def jumpPenaltySeg : ℚ := 1/25

/-- Uniform-spread fallback for an empty segment list: each line lasts
`max(0.5, wordcount*0.25)` seconds with `0.1`-second gaps. -/
def uniformSpreadSegs : List (List Char) → Nat → ℚ → List TLine
  | [], _, _ => []
  | line :: ls, i, t =>
    let dur := max (1/2) ((pysplit (normalizeText line)).length * (1/4) : ℚ)
    (i, i, t, t + dur, line) :: uniformSpreadSegs ls (i + 1) (t + dur + 1/10)

/-- Best segment-run candidate:
`(score, j0, j1, start, end, joined)`. -/
structure SegBest where
  score : ℚ
  j0 : Nat
  j1 : Nat
  st : ℚ
  en : ℚ
  joined : List Char
  deriving DecidableEq, Repr

/-- Candidate times for the merged run `segs[j0..j1]` at the moment the
best is updated (lyricsync.py:849-855). -/
def segCandTimes (segs : List Seg) (total pad_s min_gap_s lastEnd : ℚ)
    (j0 j1 : Nat) : ℚ × ℚ :=
  let st := max ((segs.getD j0 ⟨[], 0, 0⟩).start - pad_s) (lastEnd + min_gap_s)
  let en := max ((segs.getD j1 ⟨[], 0, 0⟩).stop + pad_s) (st + min_gap_s)
  let st' := min st (max (total - min_gap_s) 0)
  (st', min (max en (st' + min_gap_s)) total)

/-- The `if best is None or score > best[0]` update of the merge scan
(lyricsync.py:848-855). -/
def segUpdate (segs : List Seg) (total pad_s min_gap_s lastEnd : ℚ)
    (j0 j1 : Nat) (score : ℚ) (joined' : List Char)
    (best : Option SegBest) : Option SegBest :=
  if (match best with | none => true | some bb => decide (bb.score < score)) then
    let t := segCandTimes segs total pad_s min_gap_s lastEnd j0 j1
    some ⟨score, j0, j1, t.1, t.2, joined'⟩
  else best

/-- Inner merge loop (`for j1 in range(j0, j1_limit + 1)`), carrying the
incrementally built `joined` text (`(joined + " " + seg_texts[j1]).strip()`
for merges). -/
def segInner (segs : List Seg) (nl : List Char) (cur : Nat)
    (total pad_s min_gap_s lastEnd : ℚ) (j0 : Nat) :
    List Nat → List Char → Option SegBest → Option SegBest
  | [], _, best => best
  | j1 :: rest, joined, best =>
    let joined' := if j1 = j0 then (segs.getD j0 ⟨[], 0, 0⟩).text
      else stripWs (joined ++ ' ' :: (segs.getD j1 ⟨[], 0, 0⟩).text)
    let base := hybridScore joined' nl
    let dist := min (natDist j0 cur) 10
    let score := base - jumpPenaltySeg * (dist : ℚ)
    let best' := segUpdate segs total pad_s min_gap_s lastEnd j0 j1 score
      joined' best
    if strongThresh ≤ base ∧ cur ≤ j0 then best'
    else segInner segs nl cur total pad_s min_gap_s lastEnd j0 rest joined' best'

/-- Outer loop over candidate start segments (`for j0 in range(lo, hi+1)`). -/
def segOuter (segs : List Seg) (n : Nat) (nl : List Char) (cur : Nat)
    (total pad_s min_gap_s lastEnd : ℚ) :
    List Nat → Option SegBest → Option SegBest
  | [], best => best
  | j0 :: js, best =>
    let j1lim := min (n - 1) (j0 + maxMerge - 1)
    let best' := segInner segs nl cur total pad_s min_gap_s lastEnd j0
      (List.range' j0 (j1lim + 1 - j0)) [] best
    segOuter segs n nl cur total pad_s min_gap_s lastEnd js best'

/-- The per-line loop of `align_lines_to_segments` for non-empty `segs`. -/
def segLoop (segs : List Seg) (n : Nat) (total pad_s min_gap_s : ℚ) :
    List (List Char) → Nat → Nat → ℚ → List TLine
  | [], _, _, _ => []
  | line :: ls, i, cur, lastEnd =>
    let nl := normalizeText line
    if nl = [] then
      let st := max (lastEnd + min_gap_s) lastEnd
      let en := min (st + max min_gap_s (pad_s * 2)) total
      (i, i, st, en, line) :: segLoop segs n total pad_s min_gap_s ls (i + 1) cur en
    else
      let lo := cur - windowBack
      let hi := min (n - 1) (cur + windowAhead)
      let best := segOuter segs n nl cur total pad_s min_gap_s lastEnd
        (List.range' lo (hi + 1 - lo)) none
      match best with
      | some b =>
        if acceptThresh ≤ b.score then
          (i, i, b.st, b.en, line) ::
            segLoop segs n total pad_s min_gap_s ls (i + 1) (min (b.j1 + 1) (n - 1)) b.en
        else
          let st := max (lastEnd + min_gap_s) lastEnd
          let en := min (st + max min_gap_s (pad_s * 2)) total
          (i, i, st, en, line) :: segLoop segs n total pad_s min_gap_s ls (i + 1) cur en
      | none =>
        let st := max (lastEnd + min_gap_s) lastEnd
        let en := min (st + max min_gap_s (pad_s * 2)) total
        (i, i, st, en, line) :: segLoop segs n total pad_s min_gap_s ls (i + 1) cur en

/-- `align_lines_to_segments(segs, lyric_lines, pad_s, min_gap_s)` at the
default search parameters. -/
def alignLinesToSegments (segs : List Seg) (lyric_lines : List (List Char))
    (pad_s min_gap_s : ℚ) : List TLine :=
  if segs = [] then uniformSpreadSegs lyric_lines 0 0
  else
    let n := segs.length
    let total := (segs.getLast?.map (·.stop)).getD 0
    segLoop segs n total pad_s min_gap_s lyric_lines 0 0 0

/-! ## Alignment-quality heuristics -/

/-- Estimated lyric word count
(`sum(len(normalize_text(l).split()) for l in lyric_lines if l.strip())`),
from `_needs_vad_retry`. -/
def estLyricWords (lyric_lines : List (List Char)) : Nat :=
  ((lyric_lines.filter (fun l => ¬(l.dropWhile isWs).rdropWhile isWs = [])).map
    (fun l => (pysplit (normalizeText l)).length)).sum

/-- `segs[-1].end if segs else 0.0`. -/
def lastSegEnd (segs : List Seg) : ℚ := (segs.getLast?.map (·.stop)).getD 0

/-- `_needs_vad_retry(words, segs, total_dur, lyric_lines)`
(lyricsync.py:979-986). -/
def needsVadRetry (words : List Word) (segs : List Seg) (total_dur : ℚ)
    (lyric_lines : List (List Char)) : Bool :=
  if total_dur ≤ 0 then true
  else
    let coverage := lastSegEnd segs / total_dur
    let est := estLyricWords lyric_lines
    let token_ratio : ℚ :=
      if est = 0 then 0 else (words.length : ℚ) / (max est 1 : ℕ)
    decide (coverage < 13/20) || decide (token_ratio < 7/20)

/-- The word-vs-segment fallback decision of `main`
(lyricsync.py:2611-2620): discard the word-level timeline when
`len(low) > len(scores)*0.5` or `late > max(2, len(tmp)//5)`, where
`low = [s for s in scores if (s or 0.0) < 0.45]` (`s or 0.0` equals `s`
numerically) and `late` counts entries of `tmp[int(len(tmp)*0.8):]`
(`int(len*0.8)` equals `4*len/5` rounded down) whose start exceeds
`total_dur*0.8`, computed only when `total_dur` and `tmp` are truthy. -/
def fallbackToSegments (scores : List ℚ) (tmp : List TLine) (total_dur : ℚ) :
    Bool :=
  let low := scores.filter (fun s => s < 9/20)
  let late :=
    if ¬total_dur = 0 ∧ ¬tmp = [] then
      ((tmp.drop (tmp.length * 4 / 5)).filter
        (fun t => decide (total_dur * (4/5) < tlStart t))).length
    else 0
  decide ((low.length : ℚ) > (scores.length : ℚ) * (1/2)) ||
    decide (late > max 2 (tmp.length / 5))

/-! ## Structural lemmas for the greedy word aligner -/

theorem stubFill_fst_len (e : Nat) :
    ∀ (ls : List (List Char)) (li : Nat),
      (stubFill e ls li).1.length = ls.length := by
  intro ls
  induction ls with
  | nil => intro li; rfl
  | cons l rest ih => intro li; simp [stubFill, ih]

theorem stubFill_snd_len (e : Nat) :
    ∀ (ls : List (List Char)) (li : Nat),
      (stubFill e ls li).2.length = ls.length := by
  intro ls
  induction ls with
  | nil => intro li; rfl
  | cons l rest ih => intro li; simp [stubFill, ih]

theorem greedyLoop_fst_len (toks : List (List Char)) (n : Nat) :
    ∀ (ls : List (List Char)) (li cur : Nat),
      (greedyLoop toks n ls li cur).1.length = ls.length := by
  intro ls
  induction ls with
  | nil => intro li cur; rfl
  | cons line rest ih =>
    intro li cur
    unfold greedyLoop
    dsimp only
    repeat' split
    all_goals simp [List.length_cons, ih, stubFill_fst_len]

theorem greedyLoop_snd_len (toks : List (List Char)) (n : Nat) :
    ∀ (ls : List (List Char)) (li cur : Nat),
      (greedyLoop toks n ls li cur).2.length = ls.length := by
  intro ls
  induction ls with
  | nil => intro li cur; rfl
  | cons line rest ih =>
    intro li cur
    unfold greedyLoop
    dsimp only
    repeat' split
    all_goals simp [List.length_cons, ih, stubFill_snd_len]

theorem stubFill_get (e : Nat) :
    ∀ (ls : List (List Char)) (li k : Nat) (s : MatchSpan),
      (stubFill e ls li).1.get? k = some s →
        s.line_index = li + k ∧ s.start_word = e ∧ s.end_word = e ∧
          s.score = 0 := by
  intro ls
  induction ls with
  | nil => intro li k s h; cases h
  | cons l rest ih =>
    intro li k s h
    cases k with
    | zero =>
      simp only [stubFill, List.get?_cons_zero, Option.some.injEq] at h
      subst h
      exact ⟨by simp, rfl, rfl, rfl⟩
    | succ m =>
      simp only [stubFill, List.get?_cons_succ] at h
      have := ih (li + 1) m s h
      exact ⟨by omega, this.2.1, this.2.2.1, this.2.2.2⟩

theorem greedyLoop_get (toks : List (List Char)) (n : Nat) :
    ∀ (ls : List (List Char)) (li cur k : Nat) (s : MatchSpan),
      (greedyLoop toks n ls li cur).1.get? k = some s →
        s.line_index = li + k := by
  intro ls
  induction ls with
  | nil => intro li cur k s h; cases h
  | cons line rest ih =>
    intro li cur k s h
    unfold greedyLoop at h
    dsimp only at h
    repeat' split at h
    all_goals
      cases k with
      | zero =>
        simp only [List.get?_cons_zero, Option.some.injEq] at h
        subst h; rfl
      | succ m =>
        simp only [List.get?_cons_succ] at h
        first
          | (have hsf := stubFill_get _ rest (li + 1) m s h; omega)
          | (have hih := ih (li + 1) _ m s h; omega)

theorem stubFill_scores (e : Nat) :
    ∀ (ls : List (List Char)) (li : Nat),
      (stubFill e ls li).2 = (stubFill e ls li).1.map (·.score) := by
  intro ls
  induction ls with
  | nil => intro li; rfl
  | cons l rest ih => intro li; simp [stubFill, ih]

theorem greedyLoop_scores (toks : List (List Char)) (n : Nat) :
    ∀ (ls : List (List Char)) (li cur : Nat),
      (greedyLoop toks n ls li cur).2 =
        (greedyLoop toks n ls li cur).1.map (·.score) := by
  intro ls
  induction ls with
  | nil => intro li cur; rfl
  | cons line rest ih =>
    intro li cur
    unfold greedyLoop
    dsimp only
    repeat' split
    all_goals simp [ih, stubFill_scores]

/-! ### Index bounds through the local search -/

theorem scanWins_bounds (toks : List (List Char)) (nl : List Char)
    (cur start n : Nat) :
    ∀ (wins : List Nat) (b : ℚ × Nat × Nat),
      b.2.1 ≤ n → b.2.2 ≤ n →
      (∀ w ∈ wins, 1 ≤ w ∧ w ≤ n - start) →
      (scanWins toks nl cur start wins b).2.1 ≤ n ∧
        (scanWins toks nl cur start wins b).2.2 ≤ n := by
  intro wins
  induction wins with
  | nil => intro b h1 h2 _; exact ⟨h1, h2⟩
  | cons win ws ih =>
    intro b h1 h2 hmem
    have hw := hmem win (by simp)
    have hrest : ∀ w ∈ ws, 1 ≤ w ∧ w ≤ n - start :=
      fun w hmw => hmem w (List.mem_cons_of_mem _ hmw)
    unfold scanWins
    dsimp only
    split
    · exact ih b h1 h2 hrest
    · have hb' : (if b.1 < hybridScore (joinToks ((toks.drop start).take win)) nl -
          jumpPenalty * (natDist start cur : ℚ) then
          (hybridScore (joinToks ((toks.drop start).take win)) nl -
            jumpPenalty * (natDist start cur : ℚ), start, start + win) else b).2.1 ≤ n ∧
          (if b.1 < hybridScore (joinToks ((toks.drop start).take win)) nl -
          jumpPenalty * (natDist start cur : ℚ) then
          (hybridScore (joinToks ((toks.drop start).take win)) nl -
            jumpPenalty * (natDist start cur : ℚ), start, start + win) else b).2.2 ≤ n := by
        split
        · constructor <;> dsimp only <;> omega
        · exact ⟨h1, h2⟩
      split
      · exact hb'
      · exact ih _ hb'.1 hb'.2 hrest

theorem scanStarts_bounds (toks : List (List Char)) (n : Nat)
    (nl : List Char) (cur tgt : Nat) :
    ∀ (ss : List Nat) (b : ℚ × Nat × Nat),
      b.2.1 ≤ n → b.2.2 ≤ n →
      (scanStarts toks n nl cur tgt ss b).2.1 ≤ n ∧
        (scanStarts toks n nl cur tgt ss b).2.2 ≤ n := by
  intro ss
  induction ss with
  | nil => intro b h1 h2; exact ⟨h1, h2⟩
  | cons start rest ih =>
    intro b h1 h2
    unfold scanStarts
    dsimp only
    split
    · exact ⟨h1, h2⟩
    · have hmem : ∀ w ∈ List.range' (max minWindow (tgt - 3))
          (min (tgt + maxWindowExtra) (n - start) + 1 - max minWindow (tgt - 3)),
          1 ≤ w ∧ w ≤ n - start := by
        intro w hw
        rw [List.mem_range'] at hw
        rcases hw with ⟨i, hi, rfl⟩
        have hminw : (1 : Nat) ≤ minWindow := by norm_num [minWindow]
        omega
      have hb := scanWins_bounds toks nl cur start n _ b h1 h2 hmem
      exact ih _ hb.1 hb.2


theorem stubFill_mem (e : Nat) :
    ∀ (ls : List (List Char)) (li : Nat),
      ∀ s ∈ (stubFill e ls li).1, s.start_word = e ∧ s.end_word = e := by
  intro ls
  induction ls with
  | nil => intro li s h; cases h
  | cons l rest ih =>
    intro li s h
    rcases List.mem_cons.1 h with rfl | h
    · exact ⟨rfl, rfl⟩
    · exact ih (li + 1) s h

/-- C10 core: every span stays inside `[0, n]` with
`start_word ≤ end_word`, provided the incoming cursor does. -/
theorem greedyLoop_bounds (toks : List (List Char)) (n : Nat) :
    ∀ (ls : List (List Char)) (li cur : Nat), cur ≤ n →
      ∀ s ∈ (greedyLoop toks n ls li cur).1,
        s.start_word ≤ s.end_word ∧ s.end_word ≤ n := by
  intro ls
  induction ls with
  | nil => intro li cur _ s h; cases h
  | cons line rest ih =>
    intro li cur hcur s h
    unfold greedyLoop at h
    dsimp only at h
    split at h
    · rcases List.mem_cons.1 h with rfl | h
      · exact ⟨le_refl _, hcur⟩
      · exact ih (li + 1) cur hcur s h
    · have hsb := scanStarts_bounds toks n (normalizeText line) cur
        (max (pysplit (normalizeText line)).length minWindow)
        (List.range' (cur - backtrack)
          (min (n - 1) (cur + lookahead) + 1 - (cur - backtrack)))
        (-1, cur, cur) hcur hcur
      split at h
      · split at h
        · split at h
          · rcases List.mem_cons.1 h with rfl | h
            · dsimp only
              constructor <;> omega
            · have := stubFill_mem _ rest (li + 1) s h
              omega
          · rcases List.mem_cons.1 h with rfl | h
            · dsimp only
              constructor <;> omega
            · exact ih (li + 1) _ (by omega) s h
        · split at h
          · rcases List.mem_cons.1 h with rfl | h
            · dsimp only
              constructor <;> omega
            · have := stubFill_mem _ rest (li + 1) s h
              omega
          · rcases List.mem_cons.1 h with rfl | h
            · dsimp only
              constructor <;> omega
            · exact ih (li + 1) _ (by omega) s h
      · rcases List.mem_cons.1 h with rfl | h
        · dsimp only
          constructor <;> omega
        · exact ih (li + 1) _ (by omega) s h

/-! ## Structural lemmas for the segment aligner -/

theorem segLoop_len (segs : List Seg) (n : Nat) (total pad_s min_gap_s : ℚ) :
    ∀ (ls : List (List Char)) (i cur : Nat) (lastEnd : ℚ),
      (segLoop segs n total pad_s min_gap_s ls i cur lastEnd).length =
        ls.length := by
  intro ls
  induction ls with
  | nil => intro i cur lastEnd; rfl
  | cons line rest ih =>
    intro i cur lastEnd
    unfold segLoop
    dsimp only
    repeat' split
    all_goals simp [ih]

theorem segLoop_get (segs : List Seg) (n : Nat) (total pad_s min_gap_s : ℚ) :
    ∀ (ls : List (List Char)) (i cur : Nat) (lastEnd : ℚ) (k : Nat) (t : TLine),
      (segLoop segs n total pad_s min_gap_s ls i cur lastEnd).get? k = some t →
        t.1 = i + k ∧ t.2.1 = i + k := by
  intro ls
  induction ls with
  | nil => intro i cur lastEnd k t h; cases h
  | cons line rest ih =>
    intro i cur lastEnd k t h
    unfold segLoop at h
    dsimp only at h
    repeat' split at h
    all_goals
      cases k with
      | zero =>
        simp only [List.get?_cons_zero, Option.some.injEq] at h
        subst h; exact ⟨rfl, rfl⟩
      | succ m =>
        simp only [List.get?_cons_succ] at h
        have := ih (i + 1) _ _ m t h
        omega

theorem uniformSpreadSegs_len :
    ∀ (ls : List (List Char)) (i : Nat) (t0 : ℚ),
      (uniformSpreadSegs ls i t0).length = ls.length := by
  intro ls
  induction ls with
  | nil => intro i t0; rfl
  | cons line rest ih => intro i t0; simp [uniformSpreadSegs, ih]

theorem uniformSpreadSegs_spec :
    ∀ (ls : List (List Char)) (i : Nat) (t0 : ℚ) (k : Nat) (tl : TLine),
      (uniformSpreadSegs ls i t0).get? k = some tl →
        tl.1 = i + k ∧ tl.2.1 = i + k ∧ ls.get? k = some tl.2.2.2.2 ∧
          tlEnd tl = tlStart tl +
            max (1/2) (((pysplit (normalizeText tl.2.2.2.2)).length : ℚ) * (1/4)) := by
  intro ls
  induction ls with
  | nil => intro i t0 k tl h; cases h
  | cons line rest ih =>
    intro i t0 k tl h
    cases k with
    | zero =>
      simp only [uniformSpreadSegs, List.get?_cons_zero, Option.some.injEq] at h
      subst h
      refine ⟨rfl, rfl, rfl, ?_⟩
      simp [tlStart, tlEnd]
    | succ m =>
      simp only [uniformSpreadSegs, List.get?_cons_succ] at h
      have := ih (i + 1) _ m tl h
      refine ⟨by omega, by omega, this.2.2.1, this.2.2.2⟩

theorem uniformSpreadSegs_gap :
    ∀ (ls : List (List Char)) (i : Nat) (t0 : ℚ) (k : Nat) (u v : TLine),
      (uniformSpreadSegs ls i t0).get? k = some u →
      (uniformSpreadSegs ls i t0).get? (k + 1) = some v →
        tlStart v = tlEnd u + 1/10 := by
  intro ls
  induction ls with
  | nil => intro i t0 k u v h; cases h
  | cons line rest ih =>
    intro i t0 k u v hu hv
    cases k with
    | zero =>
      simp only [uniformSpreadSegs, List.get?_cons_zero, Option.some.injEq] at hu
      simp only [uniformSpreadSegs, List.get?_cons_succ] at hv
      subst hu
      cases rest with
      | nil => cases hv
      | cons l2 rs =>
        simp only [uniformSpreadSegs, List.get?_cons_zero, Option.some.injEq] at hv
        subst hv
        simp [tlStart, tlEnd]
    | succ m =>
      simp only [uniformSpreadSegs, List.get?_cons_succ] at hu hv
      exact ih (i + 1) _ m u v hu hv

theorem uniformSpreadSegs_head :
    ∀ (ls : List (List Char)) (i : Nat) (t0 : ℚ) (tl : TLine),
      (uniformSpreadSegs ls i t0).get? 0 = some tl → tlStart tl = t0 := by
  intro ls i t0 tl h
  cases ls with
  | nil => cases h
  | cons line rest =>
    simp only [uniformSpreadSegs, List.get?_cons_zero, Option.some.injEq] at h
    subst h
    rfl

/-! ## Timing invariants of the materializer -/

theorem spanRaw_fst_ge (ws we : List ℚ) (n : Nat)
    (pad gap mind lastEnd : ℚ) (sp : MatchSpan) :
    lastEnd + gap ≤ (spanRawTimes ws we n pad gap mind lastEnd sp).1 := by
  unfold spanRawTimes
  dsimp only
  split
  · split
    · exact le_max_right _ _
    · exact le_max_right _ _
  · exact le_max_left _ _

/-- All clamp facts about one span's final `(start, end)` under
non-negative `total_dur` and `min_gap_s`, with the previous end in
`[0, total]`. -/
theorem spanTimes_step (ws we : List ℚ) (n : Nat)
    (total pad gap mind lastEnd : ℚ) (sp : MatchSpan)
    (htot : 0 ≤ total) (hgap : 0 ≤ gap) (hle : 0 ≤ lastEnd)
    (hlet : lastEnd ≤ total) :
    0 ≤ (spanTimes ws we n total pad gap mind lastEnd sp).1 ∧
    (spanTimes ws we n total pad gap mind lastEnd sp).1 ≤ max (total - gap) 0 ∧
    (spanTimes ws we n total pad gap mind lastEnd sp).1 ≤
      (spanTimes ws we n total pad gap mind lastEnd sp).2 ∧
    0 ≤ (spanTimes ws we n total pad gap mind lastEnd sp).2 ∧
    (spanTimes ws we n total pad gap mind lastEnd sp).2 ≤ total ∧
    min (lastEnd + gap) (max (total - gap) 0) ≤
      (spanTimes ws we n total pad gap mind lastEnd sp).1 ∧
    lastEnd ≤ (spanTimes ws we n total pad gap mind lastEnd sp).2 := by
  have hr1 := spanRaw_fst_ge ws we n pad gap mind lastEnd sp
  set r := spanRawTimes ws we n pad gap mind lastEnd sp with hrdef
  have hM : (0 : ℚ) ≤ max (total - gap) 0 := le_max_right _ _
  have hMt : max (total - gap) 0 ≤ total := max_le (by linarith) htot
  have h1eq : (spanTimes ws we n total pad gap mind lastEnd sp).1 =
      min r.1 (max (total - gap) 0) := rfl
  have h2eq : (spanTimes ws we n total pad gap mind lastEnd sp).2 =
      min (max r.2 ((spanTimes ws we n total pad gap mind lastEnd sp).1 + gap))
        total := rfl
  set st := (spanTimes ws we n total pad gap mind lastEnd sp).1 with hst
  set en := (spanTimes ws we n total pad gap mind lastEnd sp).2 with hen
  have p1 : 0 ≤ st := by
    rw [h1eq]
    exact le_min (by linarith) hM
  have p2 : st ≤ max (total - gap) 0 := by
    rw [h1eq]; exact min_le_right _ _
  have p6 : min (lastEnd + gap) (max (total - gap) 0) ≤ st := by
    rw [h1eq]; exact min_le_min hr1 le_rfl
  have p3 : st ≤ en := by
    rw [h2eq]
    refine le_min (le_trans (by linarith) (le_max_right _ _)) (by linarith)
  have p4 : 0 ≤ en := by
    rw [h2eq]
    exact le_min (le_trans (by linarith) (le_max_right _ _)) htot
  have p5 : en ≤ total := by
    rw [h2eq]; exact min_le_right _ _
  have p7 : lastEnd ≤ en := by
    rw [h2eq]
    refine le_min ?_ hlet
    refine le_trans ?_ (le_max_right _ _)
    rcases le_total (lastEnd + gap) (max (total - gap) 0) with hc | hc
    · have := le_trans (by rw [min_eq_left hc]) p6
      linarith
    · have h' : max (total - gap) 0 ≤ st := le_trans (by rw [min_eq_right hc]) p6
      have h'' : total - gap ≤ max (total - gap) 0 := le_max_left _ _
      linarith
  exact ⟨p1, p2, p3, p4, p5, p6, p7⟩

/-- The materializer loop invariant: membership bounds, head relations,
and the pairwise chain. -/
theorem wstlLoop_invariant (lines : List (List Char)) (ws we : List ℚ)
    (n : Nat) (total pad gap mind : ℚ)
    (htot : 0 ≤ total) (hgap : 0 ≤ gap) :
    ∀ (sps : List MatchSpan) (k : Nat) (lastEnd : ℚ) (out : List TLine),
      0 ≤ lastEnd → lastEnd ≤ total →
      wstlLoop lines ws we n total pad gap mind sps k lastEnd = some out →
      (∀ t ∈ out, 0 ≤ tlStart t ∧ tlStart t ≤ max (total - gap) 0 ∧
        tlStart t ≤ tlEnd t ∧ 0 ≤ tlEnd t ∧ tlEnd t ≤ total) ∧
      (∀ u ∈ out.head?,
        min (lastEnd + gap) (max (total - gap) 0) ≤ tlStart u ∧
          lastEnd ≤ tlEnd u) ∧
      List.Chain' (fun u v => tlEnd u - gap ≤ tlStart v ∧
        tlStart u ≤ tlStart v ∧ tlEnd u ≤ tlEnd v) out := by
  intro sps
  induction sps with
  | nil =>
    intro k lastEnd out _ _ h
    simp only [wstlLoop, Option.some.injEq] at h
    subst h
    refine ⟨by simp, by simp, by simp⟩
  | cons sp sps' ih =>
    intro k lastEnd out hle hlet h
    unfold wstlLoop at h
    rcases htext : lines.get? sp.line_index with _ | text <;> rw [htext] at h
    · cases h
    simp only [Option.some_bind] at h
    rcases hrest : wstlLoop lines ws we n total pad gap mind sps' (k + 1)
        (spanTimes ws we n total pad gap mind lastEnd sp).2 with _ | rest
    · rw [hrest] at h
      cases h
    rw [hrest] at h
    replace h : (k, sp.line_index, (spanTimes ws we n total pad gap mind lastEnd sp).1,
        (spanTimes ws we n total pad gap mind lastEnd sp).2, text) :: rest = out :=
      Option.some.inj h
    subst h
    have hstep := spanTimes_step ws we n total pad gap mind lastEnd sp
      htot hgap hle hlet
    obtain ⟨p1, p2, p3, p4, p5, p6, p7⟩ := hstep
    set t := spanTimes ws we n total pad gap mind lastEnd sp with htdef
    have hrec := ih (k + 1) t.2 rest p4 p5 hrest
    obtain ⟨hA, hB, hC⟩ := hrec
    have htl : tlStart ((k, sp.line_index, t.1, t.2, text) : TLine) = t.1 ∧
        tlEnd ((k, sp.line_index, t.1, t.2, text) : TLine) = t.2 := ⟨rfl, rfl⟩
    refine ⟨?_, ?_, ?_⟩
    · intro u hu
      rcases List.mem_cons.1 hu with rfl | hu
      · exact ⟨p1, p2, p3, p4, p5⟩
      · exact hA u hu
    · intro u hu
      simp only [List.head?_cons, Option.mem_def, Option.some.injEq] at hu
      subst hu
      exact ⟨p6, p7⟩
    · refine List.chain'_cons'.2 ⟨?_, hC⟩
      intro v hv
      have hBv := hB v hv
      have hAv := hA v (by
        rcases rest with _ | ⟨r0, rs⟩
        · cases hv
        · simp only [List.head?_cons, Option.mem_def, Option.some.injEq] at hv
          subst hv
          exact List.mem_cons_self _ _)
      rcases hBv with ⟨hv1, hv2⟩
      have hmax : total - gap ≤ max (total - gap) 0 := le_max_left _ _
      refine ⟨?_, ?_, ?_⟩
      · -- end - gap ≤ next start
        rcases le_total (t.2 + gap) (max (total - gap) 0) with hc | hc
        · have := le_trans (min_eq_left hc).symm.le hv1
          simp only [tlEnd, tlStart] at *
          linarith
        · have := le_trans (min_eq_right hc).symm.le hv1
          simp only [tlEnd, tlStart] at *
          linarith
      · -- start monotone
        have : min (t.2 + gap) (max (total - gap) 0) ≤ tlStart v := hv1
        simp only [tlStart, tlEnd] at *
        rcases le_total (t.2 + gap) (max (total - gap) 0) with hc | hc
        · rw [min_eq_left hc] at this; linarith
        · rw [min_eq_right hc] at this; linarith
      · exact hv2

/-- Totality of the materializer loop for spans whose `line_index` is in
range (the `lyric_lines[li]` lookup is the only failure point). -/
theorem wstlLoop_total (lines : List (List Char)) (ws we : List ℚ)
    (n : Nat) (total pad gap mind : ℚ) :
    ∀ (sps : List MatchSpan) (k : Nat) (lastEnd : ℚ),
      (∀ sp ∈ sps, sp.line_index < lines.length) →
      ∃ out, wstlLoop lines ws we n total pad gap mind sps k lastEnd =
        some out := by
  intro sps
  induction sps with
  | nil => intro k lastEnd _; exact ⟨[], rfl⟩
  | cons sp sps' ih =>
    intro k lastEnd hmem
    have hidx : sp.line_index < lines.length := hmem sp (by simp)
    have htext : lines.get? sp.line_index =
        some (lines.get ⟨sp.line_index, hidx⟩) := List.get?_eq_get hidx
    set text := lines.get ⟨sp.line_index, hidx⟩
    obtain ⟨rest, hrest⟩ := ih (k + 1)
      (spanTimes ws we n total pad gap mind lastEnd sp).2
      (fun q hq => hmem q (List.mem_cons_of_mem _ hq))
    refine ⟨(k, sp.line_index, (spanTimes ws we n total pad gap mind lastEnd sp).1,
      (spanTimes ws we n total pad gap mind lastEnd sp).2, text) :: rest, ?_⟩
    unfold wstlLoop
    rw [htext]
    simp only [Option.some_bind]
    rw [hrest]
    rfl

/-! ### Non-negativity through the segment aligner -/

theorem segCandTimes_nonneg (segs : List Seg) (total pad gap lastEnd : ℚ)
    (j0 j1 : Nat) (htot : 0 ≤ total) (hgap : 0 ≤ gap) (hle : 0 ≤ lastEnd) :
    0 ≤ (segCandTimes segs total pad gap lastEnd j0 j1).1 ∧
      0 ≤ (segCandTimes segs total pad gap lastEnd j0 j1).2 := by
  unfold segCandTimes
  dsimp only
  constructor
  · exact le_min (le_trans (by linarith) (le_max_right _ _)) (le_max_right _ _)
  · refine le_min (le_trans ?_ (le_max_right _ _)) htot
    have h1 : (0 : ℚ) ≤ min (max ((segs.getD j0 ⟨[], 0, 0⟩).start - pad)
        (lastEnd + gap)) (max (total - gap) 0) :=
      le_min (le_trans (by linarith) (le_max_right _ _)) (le_max_right _ _)
    linarith

/-- Every `some` result of the inner merge scan has non-negative
candidate times. -/
theorem segInner_nonneg (segs : List Seg) (nl : List Char) (cur : Nat)
    (total pad gap lastEnd : ℚ)
    (htot : 0 ≤ total) (hgap : 0 ≤ gap) (hle : 0 ≤ lastEnd) (j0 : Nat) :
    ∀ (js : List Nat) (joined : List Char) (best : Option SegBest),
      (∀ b, best = some b → 0 ≤ b.st ∧ 0 ≤ b.en) →
      ∀ b, segInner segs nl cur total pad gap lastEnd j0 js joined best =
        some b → 0 ≤ b.st ∧ 0 ≤ b.en := by
  intro js
  induction js with
  | nil => intro joined best hbest b h; exact hbest b h
  | cons j1 rest ih =>
    intro joined best hbest b h
    unfold segInner at h
    dsimp only at h
    have hcand := segCandTimes_nonneg segs total pad gap lastEnd j0 j1
      htot hgap hle
    have hupd : ∀ (sc : ℚ) (jd : List Char) (ob : Option SegBest),
        (∀ b', ob = some b' → 0 ≤ b'.st ∧ 0 ≤ b'.en) →
        ∀ b', segUpdate segs total pad gap lastEnd j0 j1 sc jd ob = some b' →
          0 ≤ b'.st ∧ 0 ≤ b'.en := by
      intro sc jd ob hob b' hb'
      unfold segUpdate at hb'
      split at hb'
      · rcases Option.some.inj hb' with rfl
        exact hcand
      · exact hob b' hb'
    split at h <;> split at h <;>
      first
        | exact hupd _ _ best hbest b h
        | exact ih _ _ (hupd _ _ best hbest) b h

theorem segOuter_nonneg (segs : List Seg) (n : Nat) (nl : List Char)
    (cur : Nat) (total pad gap lastEnd : ℚ)
    (htot : 0 ≤ total) (hgap : 0 ≤ gap) (hle : 0 ≤ lastEnd) :
    ∀ (js : List Nat) (best : Option SegBest),
      (∀ b, best = some b → 0 ≤ b.st ∧ 0 ≤ b.en) →
      ∀ b, segOuter segs n nl cur total pad gap lastEnd js best = some b →
        0 ≤ b.st ∧ 0 ≤ b.en := by
  intro js
  induction js with
  | nil => intro best hbest b h; exact hbest b h
  | cons j0 rest ih =>
    intro best hbest b h
    unfold segOuter at h
    exact ih _ (fun b' hb' => segInner_nonneg segs nl cur total pad gap lastEnd
      htot hgap hle j0 _ _ best hbest b' hb') b h

/-- C9 core for the segment aligner: with a non-negative last segment
end and non-negative `min_gap_s`, every emitted time is non-negative. -/
theorem segLoop_nonneg (segs : List Seg) (n : Nat) (total pad gap : ℚ)
    (htot : 0 ≤ total) (hgap : 0 ≤ gap) :
    ∀ (ls : List (List Char)) (i cur : Nat) (lastEnd : ℚ), 0 ≤ lastEnd →
      ∀ t ∈ segLoop segs n total pad gap ls i cur lastEnd,
        0 ≤ tlStart t ∧ 0 ≤ tlEnd t := by
  intro ls
  induction ls with
  | nil => intro i cur lastEnd _ t h; cases h
  | cons line rest ih =>
    intro i cur lastEnd hle t h
    unfold segLoop at h
    dsimp only at h
    have hstub_st : (0 : ℚ) ≤ max (lastEnd + gap) lastEnd :=
      le_trans hle (le_max_right _ _)
    have hstub_en : (0 : ℚ) ≤
        min (max (lastEnd + gap) lastEnd + max gap (pad * 2)) total := by
      refine le_min ?_ htot
      have : (0 : ℚ) ≤ max gap (pad * 2) := le_trans hgap (le_max_left _ _)
      linarith
    split at h
    · rcases List.mem_cons.1 h with rfl | h
      · exact ⟨hstub_st, hstub_en⟩
      · exact ih (i + 1) _ _ hstub_en t h
    · split at h
      · rename_i b hb
        split at h
        · rcases List.mem_cons.1 h with rfl | h
          · exact segOuter_nonneg segs n _ cur total pad gap lastEnd
              htot hgap hle _ none (fun b' hb' => by cases hb') b hb
          · have hben : 0 ≤ b.en :=
              (segOuter_nonneg segs n _ cur total pad gap lastEnd
                htot hgap hle _ none (fun b' hb' => by cases hb') b hb).2
            exact ih (i + 1) _ _ hben t h
        · rcases List.mem_cons.1 h with rfl | h
          · exact ⟨hstub_st, hstub_en⟩
          · exact ih (i + 1) _ _ hstub_en t h
      · rcases List.mem_cons.1 h with rfl | h
        · exact ⟨hstub_st, hstub_en⟩
        · exact ih (i + 1) _ _ hstub_en t h

theorem emergencySpread_nonneg (mind : ℚ) :
    ∀ (ls : List (List Char)) (i : Nat) (t0 : ℚ), 0 ≤ t0 →
      ∀ t ∈ emergencySpread mind ls i t0, 0 ≤ tlStart t ∧ 0 ≤ tlEnd t := by
  intro ls
  induction ls with
  | nil => intro i t0 _ t h; cases h
  | cons line rest ih =>
    intro i t0 ht0 t h
    have hpos : (0 : ℚ) ≤ t0 + max (1/2) mind := by
      have : (1/2 : ℚ) ≤ max (1/2) mind := le_max_left _ _
      linarith
    rcases List.mem_cons.1 h with rfl | h
    · exact ⟨ht0, hpos⟩
    · exact ih (i + 1) _ (by linarith) t h

theorem uniformSpreadSegs_nonneg :
    ∀ (ls : List (List Char)) (i : Nat) (t0 : ℚ), 0 ≤ t0 →
      ∀ t ∈ uniformSpreadSegs ls i t0, 0 ≤ tlStart t ∧ 0 ≤ tlEnd t := by
  intro ls
  induction ls with
  | nil => intro i t0 _ t h; cases h
  | cons line rest ih =>
    intro i t0 ht0 t h
    have hhalf : (1/2 : ℚ) ≤
        max (1/2) (((pysplit (normalizeText line)).length : ℚ) * (1/4)) :=
      le_max_left _ _
    rcases List.mem_cons.1 h with rfl | h
    · exact ⟨ht0, by dsimp only [tlEnd]; linarith⟩
    · exact ih (i + 1) _ (by linarith) t h

/-! ## Facts about `smRatio` and `hybridScore` on degenerate inputs -/

theorem flmLoop_nil_bs (blo : Nat) :
    ∀ (as' : List Char) (i : Nat) (prev : List Nat) (best : Nat × Nat × Nat),
      flmLoop [] blo as' i prev best = best := by
  intro as'
  induction as' with
  | nil => intro i prev best; rfl
  | cons ai rest ih => intro i prev best; exact ih (i + 1) _ _

theorem seqMatches_nil_left (b : List Char) : seqMatches [] b = 0 := by
  unfold seqMatches rMatches
  dsimp only
  rw [if_pos]
  unfold flm
  simp only [List.drop_nil, List.take_nil]
  rfl

theorem seqMatches_nil_right (a : List Char) : seqMatches a [] = 0 := by
  unfold seqMatches rMatches
  dsimp only
  rw [if_pos]
  unfold flm
  simp only [List.drop_nil, List.take_nil, List.length_nil, Nat.sub_zero]
  rw [flmLoop_nil_bs]

theorem smRatio_nil_left {b : List Char} (hb : b ≠ []) : smRatio [] b = 0 := by
  unfold smRatio
  rw [if_neg (by simpa using hb), seqMatches_nil_left]
  simp

theorem smRatio_nil_right {a : List Char} (ha : a ≠ []) : smRatio a [] = 0 := by
  unfold smRatio
  rw [if_neg (by simpa using ha), seqMatches_nil_right]
  simp

theorem tokset_nil : tokset [] = ∅ := rfl

/-- The token-overlap term is zero whenever one token set is empty. -/
theorem tok_term_zero_left (B : Finset (List Char)) :
    (if (∅ : Finset (List Char)) = ∅ ∧ B = ∅ then (0 : ℚ)
     else (((∅ : Finset (List Char)) ∩ B).card : ℚ) /
       (if ((∅ : Finset (List Char)) ∪ B).card = 0 then 1
        else (((∅ : Finset (List Char)) ∪ B).card : ℚ))) = 0 := by
  split
  · rfl
  · simp

theorem tok_term_zero_right (A : Finset (List Char)) :
    (if A = ∅ ∧ (∅ : Finset (List Char)) = ∅ then (0 : ℚ)
     else ((A ∩ (∅ : Finset (List Char))).card : ℚ) /
       (if (A ∪ (∅ : Finset (List Char))).card = 0 then 1
        else ((A ∪ (∅ : Finset (List Char))).card : ℚ))) = 0 := by
  split
  · rfl
  · simp

/-! ## Claim theorems

Concrete runs of the embedded functions are checked with `decide`; the
Batteries `Rat` arithmetic operations are `@[irreducible]` (a
performance measure for interactive use), which blocks that evaluation,
so their original reducibility is restored here. -/

set_option allowUnsafeReducibility true in
attribute [semireducible] Rat.add Rat.mul Rat.sub Rat.neg Rat.inv Rat.div
  Rat.blt Rat.ofScientific

/-- C4: `normalize_text` is idempotent:
`normalize_text(normalize_text(s)) == normalize_text(s)` for every
string `s`. -/
theorem claim_C4_normalizer_idempotent (s : List Char) :
    normalizeText (normalizeText s) = normalizeText s :=
  normalizeText_idem s

/-- C7: `_needs_vad_retry` returns true exactly when
`last_segment_end/total_dur < 0.65`, or
`len(words)/estimated_lyric_words < 0.35` (the ratio being 0 when the
estimate is 0), or `total_dur <= 0`; in particular with `total_dur=100`
and a last segment ending at 50 it returns true regardless of the token
ratio. -/
theorem claim_C7_vad_retry :
    (∀ (words : List Word) (segs : List Seg) (total_dur : ℚ)
        (lyric_lines : List (List Char)),
      (needsVadRetry words segs total_dur lyric_lines = true ↔
        (lastSegEnd segs / total_dur < 13/20 ∨
          (words.length : ℚ) / (estLyricWords lyric_lines : ℚ) < 7/20 ∨
          total_dur ≤ 0))) ∧
    (∀ (words : List Word) (lyric_lines : List (List Char)),
      needsVadRetry words [⟨[], 0, 50⟩] 100 lyric_lines = true) := by
  constructor
  · intro words segs total_dur lyric_lines
    unfold needsVadRetry
    by_cases ht : total_dur ≤ 0
    · rw [if_pos ht]
      simp [ht]
    · rw [if_neg ht]
      dsimp only
      rw [Bool.or_eq_true, decide_eq_true_eq, decide_eq_true_eq]
      have hratio :
          (if estLyricWords lyric_lines = 0 then (0 : ℚ)
           else (words.length : ℚ) / (max (estLyricWords lyric_lines) 1 : ℕ)) =
          (words.length : ℚ) / (estLyricWords lyric_lines : ℚ) := by
        by_cases he : estLyricWords lyric_lines = 0
        · rw [if_pos he, he]
          simp
        · rw [if_neg he, Nat.max_eq_left (Nat.one_le_iff_ne_zero.2 he)]
      rw [hratio]
      constructor
      · intro h
        rcases h with h | h
        · exact Or.inl h
        · exact Or.inr (Or.inl h)
      · intro h
        rcases h with h | h | h
        · exact Or.inl h
        · exact Or.inr h
        · exact absurd h ht
  · intro words lyric_lines
    unfold needsVadRetry
    rw [if_neg (by norm_num)]
    dsimp only
    rw [Bool.or_eq_true, decide_eq_true_eq, decide_eq_true_eq]
    left
    unfold lastSegEnd
    norm_num

/-- C3 as stated is false: `_hybrid_score` tests the *raw* strings for
emptiness, so two non-empty strings that both normalize to the empty
string (here `"!"` and `"?"`) score `0.5` (`0.5 * ratio("","") = 0.5`),
not `0.0`. -/
theorem claim_C3_counterexample :
    normalizeText "!".toList = [] ∧ normalizeText "?".toList = [] ∧
      hybridScore "!".toList "?".toList = 1/2 ∧
      ¬hybridScore "!".toList "?".toList = 0 := by
  refine ⟨rfl, rfl, by decide, by decide⟩

/-- C3 (amended): the hybrid similarity score always lies in `[0,1]`; it
is `0.0` whenever either raw input is empty, and whenever exactly one of
the two inputs normalizes to the empty string; but when both inputs are
non-empty and both normalize to the empty string the score is `0.5`. -/
theorem claim_C3_amended (a b : List Char) :
    (0 ≤ hybridScore a b ∧ hybridScore a b ≤ 1) ∧
    ((a = [] ∨ b = []) → hybridScore a b = 0) ∧
    (¬a = [] → ¬b = [] → normalizeText a = [] → ¬normalizeText b = [] →
      hybridScore a b = 0) ∧
    (¬a = [] → ¬b = [] → ¬normalizeText a = [] → normalizeText b = [] →
      hybridScore a b = 0) ∧
    (¬a = [] → ¬b = [] → normalizeText a = [] → normalizeText b = [] →
      hybridScore a b = 1/2) := by
  refine ⟨⟨hybridScore_nonneg a b, hybridScore_le_one a b⟩, ?_, ?_, ?_, ?_⟩
  · intro h
    unfold hybridScore
    rw [if_pos h]
  · intro ha hb hna hnb
    unfold hybridScore
    rw [if_neg (by simp [ha, hb])]
    dsimp only
    rw [hna, smRatio_nil_left hnb, tokset_nil, tok_term_zero_left]
    norm_num
  · intro ha hb hna hnb
    unfold hybridScore
    rw [if_neg (by simp [ha, hb])]
    dsimp only
    rw [hnb, smRatio_nil_right hna, tokset_nil, tok_term_zero_right]
    norm_num
  · intro ha hb hna hnb
    unfold hybridScore
    rw [if_neg (by simp [ha, hb])]
    dsimp only
    rw [hna, hnb]
    norm_num [smRatio, tokset_nil]

/-- Evidence for the hypotheses of `claim_C3_amended`: instantiated at
`a = "sun"`, `b = "s√n"` (one normalizes empty? no — a fresh concrete
check of each implication). -/
theorem claim_C3_amended_witness :
    ((0 : ℚ) ≤ hybridScore "sun".toList "!".toList ∧
        hybridScore "sun".toList "!".toList ≤ 1) ∧
      hybridScore [] "sun".toList = 0 ∧
      hybridScore "!".toList "sun".toList = 0 ∧
      hybridScore "sun".toList "!".toList = 0 ∧
      hybridScore "!".toList "?".toList = 1/2 := by
  refine ⟨(claim_C3_amended "sun".toList "!".toList).1, ?_, ?_, ?_, ?_⟩
  · exact (claim_C3_amended [] "sun".toList).2.1 (Or.inl rfl)
  · exact (claim_C3_amended "!".toList "sun".toList).2.2.1 (by decide)
      (by decide) (by decide) (by decide)
  · exact (claim_C3_amended "sun".toList "!".toList).2.2.2.1 (by decide)
      (by decide) (by decide) (by decide)
  · exact (claim_C3_amended "!".toList "?".toList).2.2.2.2 (by decide)
      (by decide) (by decide) (by decide)

/-- C8: for a positive total duration, the word-vs-segment fallback fires
exactly when more than half of the per-line scores are below `0.45`, or
more than `max(2, total_lines/5)` of the timed lines in the final 20% of
the timeline (the entries from index `⌊0.8*len⌋` on) start after 80% of
the total duration; and with scores `[0.9, 0.9, 0.1, 0.1, 0.1]` (3 of 5
below 0.45) the word-level timeline is always discarded. -/
theorem claim_C8_fallback :
    (∀ (scores : List ℚ) (tmp : List TLine) (total_dur : ℚ),
      0 < total_dur →
      (fallbackToSegments scores tmp total_dur = true ↔
        (scores.length < 2 * (scores.filter (fun s => s < 9/20)).length ∨
          max 2 (tmp.length / 5) <
            ((tmp.drop (tmp.length * 4 / 5)).filter
              (fun t => decide (total_dur * (4/5) < tlStart t))).length))) ∧
    (∀ (tmp : List TLine) (total_dur : ℚ),
      fallbackToSegments ((9:ℚ)/10 :: 9/10 :: 1/10 :: 1/10 :: [1/10]) tmp
        total_dur = true) := by
  constructor
  · intro scores tmp total_dur htot
    unfold fallbackToSegments
    dsimp only
    rw [Bool.or_eq_true, decide_eq_true_eq, decide_eq_true_eq]
    have hhalf : ((scores.filter (fun s => s < 9/20)).length : ℚ) >
        (scores.length : ℚ) * (1/2) ↔
        scores.length < 2 * (scores.filter (fun s => s < 9/20)).length := by
      rw [gt_iff_lt]
      rw [show ((scores.length : ℚ) * (1/2) <
          ((scores.filter (fun s => s < 9/20)).length : ℚ)) ↔
          ((scores.length : ℚ) <
            2 * ((scores.filter (fun s => s < 9/20)).length : ℚ)) from
        ⟨fun h => by linarith, fun h => by linarith⟩]
      constructor
      · intro h; exact_mod_cast h
      · intro h; exact_mod_cast h
    by_cases htmp : tmp = []
    · subst htmp
      simp only [List.length_nil, List.drop_nil, List.filter_nil,
        Nat.zero_div, Nat.zero_mul]
      rw [if_neg (by simp), hhalf]
    · rw [if_pos ⟨by exact fun h => by simp [h] at htot, htmp⟩, hhalf]
  · intro tmp total_dur
    unfold fallbackToSegments
    dsimp only
    rw [Bool.or_eq_true]
    left
    rw [decide_eq_true_eq]
    have : (((9:ℚ)/10 :: 9/10 :: 1/10 :: 1/10 :: [1/10]).filter
        (fun s => s < 9/20)).length = 3 := by decide
    rw [this]
    norm_num

/-- Witness for `claim_C8_fallback` at a concrete positive duration and a
concrete timeline. -/
theorem claim_C8_fallback_witness :
    (0 : ℚ) < 100 ∧
      (fallbackToSegments [] [] 100 = true ↔
        (([] : List ℚ).length <
            2 * (([] : List ℚ).filter (fun s => s < 9/20)).length ∨
          max 2 (([] : List TLine).length / 5) <
            ((([] : List TLine).drop (([] : List TLine).length * 4 / 5)).filter
              (fun t => decide ((100 : ℚ) * (4/5) < tlStart t))).length)) ∧
      fallbackToSegments ((9:ℚ)/10 :: 9/10 :: 1/10 :: 1/10 :: [1/10]) [] 100 =
        true := by
  refine ⟨by norm_num, claim_C8_fallback.1 [] [] 100 (by norm_num),
    claim_C8_fallback.2 [] 100⟩

theorem alignLinesToSegments_nil (lines : List (List Char)) (pad gap : ℚ) :
    alignLinesToSegments [] lines pad gap = uniformSpreadSegs lines 0 0 := by
  unfold alignLinesToSegments
  rw [if_pos rfl]

/-- C6: with an empty segment list `align_lines_to_segments` spreads the
lines uniformly: line `k` is the `k`-th output, carries its own text,
lasts `max(0.5, wordcount*0.25)` seconds, consecutive lines are separated
by exactly `0.1 s`, the first line starts at `t = 0`; and concretely
`segs=[]`, `lines=["a b c d"]` yields the single timed line
`(0, 0, 0.0, 1.0, "a b c d")`. -/
theorem claim_C6_uniform_spread :
    (∀ (lines : List (List Char)) (pad gap : ℚ),
      (alignLinesToSegments [] lines pad gap).length = lines.length ∧
      (∀ (k : Nat) (tl : TLine),
        (alignLinesToSegments [] lines pad gap).get? k = some tl →
          tl.1 = k ∧ tl.2.1 = k ∧ lines.get? k = some tl.2.2.2.2 ∧
            tlEnd tl = tlStart tl +
              max (1/2) (((pysplit (normalizeText tl.2.2.2.2)).length : ℚ) *
                (1/4))) ∧
      (∀ (k : Nat) (u v : TLine),
        (alignLinesToSegments [] lines pad gap).get? k = some u →
        (alignLinesToSegments [] lines pad gap).get? (k + 1) = some v →
          tlStart v = tlEnd u + 1/10) ∧
      (∀ u : TLine, (alignLinesToSegments [] lines pad gap).get? 0 = some u →
        tlStart u = 0)) ∧
    alignLinesToSegments [] ["a b c d".toList] (1/50) (2/25) =
      [(0, 0, (0 : ℚ), (1 : ℚ), "a b c d".toList)] := by
  constructor
  · intro lines pad gap
    rw [alignLinesToSegments_nil]
    refine ⟨uniformSpreadSegs_len lines 0 0, ?_, ?_, ?_⟩
    · intro k tl h
      have := uniformSpreadSegs_spec lines 0 0 k tl h
      simpa using this
    · intro k u v hu hv
      exact uniformSpreadSegs_gap lines 0 0 k u v hu hv
    · intro u hu
      exact uniformSpreadSegs_head lines 0 0 u hu
  · decide

/-- Witness for `claim_C6_uniform_spread`: the general clauses applied to
the one-line instance. -/
theorem claim_C6_uniform_spread_witness :
    (alignLinesToSegments [] ["a b c d".toList] (1/50) (2/25)).length = 1 ∧
      (∀ u : TLine,
        (alignLinesToSegments [] ["a b c d".toList] (1/50) (2/25)).get? 0 =
          some u → tlStart u = 0) := by
  refine ⟨?_, (claim_C6_uniform_spread.1 ["a b c d".toList] (1/50)
    (2/25)).2.2.2⟩
  exact (claim_C6_uniform_spread.1 ["a b c d".toList] (1/50) (2/25)).1

theorem padSpans_self (target : Nat) (r : List MatchSpan × List ℚ)
    (h1 : r.1.length = target) : padSpans target r = r := by
  unfold padSpans
  rw [h1, Nat.sub_self]
  simp

theorem greedyAlign_fst_len (words : List Word) (lines : List (List Char)) :
    (greedyAlign words lines).1.length = lines.length := by
  unfold greedyAlign
  dsimp only
  split
  · simp
  · rw [padSpans_self _ _ (greedyLoop_fst_len _ _ lines 0 0)]
    exact greedyLoop_fst_len _ _ lines 0 0

theorem greedyAlign_snd_len (words : List Word) (lines : List (List Char)) :
    (greedyAlign words lines).2.length = lines.length := by
  unfold greedyAlign
  dsimp only
  split
  · simp
  · rw [padSpans_self _ _ (greedyLoop_fst_len _ _ lines 0 0)]
    exact greedyLoop_snd_len _ _ lines 0 0

theorem greedyAlign_get (words : List Word) (lines : List (List Char))
    (k : Nat) (s : MatchSpan)
    (h : (greedyAlign words lines).1.get? k = some s) : s.line_index = k := by
  unfold greedyAlign at h
  dsimp only at h
  split at h
  · rw [List.get?_eq_getElem?, List.getElem?_map] at h
    by_cases hk : k < lines.length
    · rw [List.getElem?_range hk] at h
      rcases Option.some.inj h with rfl
      rfl
    · rw [List.getElem?_eq_none (by simpa using hk)] at h
      cases h
  · rw [padSpans_self _ _ (greedyLoop_fst_len _ _ lines 0 0)] at h
    have := greedyLoop_get _ _ lines 0 0 k s h
    omega

/-- C1: for any word/segment lists and any lyric-line list of length `N`,
`greedy_align_lines_to_words` returns exactly `N` spans and `N` scores
and `align_lines_to_segments` returns exactly `N` timed lines, in line
order: the `k`-th span has `line_index = k` and the `k`-th timed line
carries line index `k` in both index fields. -/
theorem claim_C1_cardinality :
    ∀ (words : List Word) (segs : List Seg) (lines : List (List Char))
      (pad gap : ℚ),
      (greedyAlign words lines).1.length = lines.length ∧
      (greedyAlign words lines).2.length = lines.length ∧
      (∀ (k : Nat) (s : MatchSpan),
        (greedyAlign words lines).1.get? k = some s → s.line_index = k) ∧
      (alignLinesToSegments segs lines pad gap).length = lines.length ∧
      (∀ (k : Nat) (t : TLine),
        (alignLinesToSegments segs lines pad gap).get? k = some t →
          t.1 = k ∧ t.2.1 = k) := by
  intro words segs lines pad gap
  refine ⟨greedyAlign_fst_len words lines, greedyAlign_snd_len words lines,
    fun k s h => greedyAlign_get words lines k s h, ?_, ?_⟩
  · unfold alignLinesToSegments
    split
    · exact uniformSpreadSegs_len lines 0 0
    · exact segLoop_len _ _ _ _ _ lines 0 0 0
  · intro k t h
    unfold alignLinesToSegments at h
    split at h
    · have := uniformSpreadSegs_spec lines 0 0 k t h
      omega
    · have := segLoop_get _ _ _ _ _ lines 0 0 0 k t h
      omega

/-- Witness for `claim_C1_cardinality` at a concrete aligned instance. -/
theorem claim_C1_cardinality_witness :
    (greedyAlign [⟨"ab".toList, 0, 1⟩] ["ab".toList, "".toList]).1.length = 2 ∧
      (∀ (k : Nat) (s : MatchSpan),
        (greedyAlign [⟨"ab".toList, 0, 1⟩]
          ["ab".toList, "".toList]).1.get? k = some s → s.line_index = k) := by
  have h := claim_C1_cardinality [⟨"ab".toList, 0, 1⟩] []
    ["ab".toList, "".toList] (1/50) (2/25)
  exact ⟨h.1, h.2.2.1⟩

/-- C10: every span returned by `greedy_align_lines_to_words` satisfies
`0 ≤ start_word ≤ end_word ≤ n` (`start_word`/`end_word` are naturals,
so non-negativity is inherent), where `n` is the number of words whose
text normalizes to a non-empty string; the `k`-th span has
`line_index = k` and its `score` equals the `k`-th returned score. -/
theorem claim_C10_span_bounds :
    ∀ (words : List Word) (lines : List (List Char)) (k : Nat) (s : MatchSpan),
      (greedyAlign words lines).1.get? k = some s →
        s.start_word ≤ s.end_word ∧ s.end_word ≤ (asrTokens words).length ∧
          s.line_index = k ∧
          (greedyAlign words lines).2.get? k = some s.score := by
  intro words lines k s h
  have hidx := greedyAlign_get words lines k s h
  obtain ⟨hlt, -⟩ := List.get?_eq_some.1 h
  have hk : k < lines.length := by
    rw [greedyAlign_fst_len] at hlt
    exact hlt
  unfold greedyAlign at h ⊢
  dsimp only at h ⊢
  split at h
  case isTrue hn =>
    rw [List.get?_eq_getElem?, List.getElem?_map, List.getElem?_range hk] at h
    rcases Option.some.inj h with rfl
    rw [if_pos hn]
    refine ⟨le_refl _, Nat.zero_le _, rfl, ?_⟩
    rw [List.get?_eq_getElem?, List.getElem?_replicate, if_pos hk]
  case isFalse hn =>
    rw [if_neg hn]
    rw [padSpans_self _ _ (greedyLoop_fst_len _ _ lines 0 0)] at h ⊢
    have hb := greedyLoop_bounds _ _ lines 0 0 (Nat.zero_le _) s
      (List.get?_mem h)
    refine ⟨hb.1, hb.2, hidx, ?_⟩
    rw [greedyLoop_scores, List.get?_eq_getElem?, List.getElem?_map,
      ← List.get?_eq_getElem?, h]
    rfl

/-- Witness for `claim_C10_span_bounds` at a concrete instance. -/
theorem claim_C10_span_bounds_witness :
    (greedyAlign [⟨"hi".toList, 0, 1⟩] ["hi".toList]).1.get? 0 =
        some ⟨0, 0, 1, 0⟩ ∧
      ((0 : Nat) ≤ 1 ∧ (1 : Nat) ≤ (asrTokens [⟨"hi".toList, 0, 1⟩]).length ∧
        (0 : Nat) = 0 ∧
        (greedyAlign [⟨"hi".toList, 0, 1⟩] ["hi".toList]).2.get? 0 =
          some (⟨0, 0, 1, 0⟩ : MatchSpan).score) := by
  have hget : (greedyAlign [⟨"hi".toList, 0, 1⟩] ["hi".toList]).1.get? 0 =
      some ⟨0, 0, 1, 0⟩ := by decide
  have h := claim_C10_span_bounds [⟨"hi".toList, 0, 1⟩] ["hi".toList] 0
    ⟨0, 0, 1, 0⟩ hget
  exact ⟨hget, Nat.zero_le _, h.2.1, h.2.2.1, h.2.2.2⟩

/-- Every blank line processed by the greedy loop yields a zero-length
span with score either `1.0` (the blank-line branch) or `0.0` (the
exhausted-input stub fill triggered by an earlier accepted span). -/
theorem greedyLoop_blank (toks : List (List Char)) (n : Nat) :
    ∀ (ls : List (List Char)) (li cur k : Nat) (s : MatchSpan)
      (l : List Char),
      (greedyLoop toks n ls li cur).1.get? k = some s →
      ls.get? k = some l → normalizeText l = [] →
        s.start_word = s.end_word ∧ (s.score = 1 ∨ s.score = 0) := by
  intro ls
  induction ls with
  | nil => intro li cur k s l h hl _; cases h
  | cons line rest ih =>
    intro li cur k s l h hl hnl
    unfold greedyLoop at h
    dsimp only at h
    cases k with
    | zero =>
      simp only [List.get?_cons_zero, Option.some.injEq] at hl
      subst hl
      rw [if_pos hnl] at h
      simp only [List.get?_cons_zero, Option.some.injEq] at h
      subst h
      exact ⟨rfl, Or.inl rfl⟩
    | succ m =>
      simp only [List.get?_cons_succ] at hl
      repeat' split at h
      all_goals
        simp only [List.get?_cons_succ] at h
        first
          | (have hsf := stubFill_get _ rest (li + 1) m s h
             exact ⟨by omega, Or.inr hsf.2.2.2⟩)
          | exact ih (li + 1) _ m s l h hl hnl

/-- C5 (amended): with a non-empty filtered token list, every lyric line
that normalizes to the empty string and is reached by the per-line loop
(i.e. not stub-filled after an accepted span exhausted the tokens)
produces a zero-length span at the current cursor with score exactly
`1.0` and leaves the cursor unchanged for the remaining lines; any blank
line, including the stub-filled ones, still gets a zero-length span with
score `1.0` or `0.0`. -/
theorem claim_C5_blank_lines :
    (∀ (toks : List (List Char)) (n : Nat) (line : List Char)
        (rest : List (List Char)) (li cur : Nat),
      normalizeText line = [] →
      greedyLoop toks n (line :: rest) li cur =
        (⟨li, cur, cur, 1⟩ :: (greedyLoop toks n rest (li + 1) cur).1,
          1 :: (greedyLoop toks n rest (li + 1) cur).2)) ∧
    (∀ (words : List Word) (lines : List (List Char)) (k : Nat)
        (s : MatchSpan) (l : List Char),
      ¬asrTokens words = [] →
      (greedyAlign words lines).1.get? k = some s →
      lines.get? k = some l → normalizeText l = [] →
        s.start_word = s.end_word ∧ (s.score = 1 ∨ s.score = 0)) := by
  constructor
  · intro toks n line rest li cur hnl
    rw [greedyLoop.eq_def]
    dsimp only
    rw [if_pos hnl]
  · intro words lines k s l htoks h hl hnl
    unfold greedyAlign at h
    dsimp only at h
    rw [if_neg (by simpa using htoks),
      padSpans_self _ _ (greedyLoop_fst_len _ _ lines 0 0)] at h
    exact greedyLoop_blank _ _ lines 0 0 k s l h hl hnl

/-- C5 as stated is false: with words `["ab", "cd"]` and lines
`["ab cd", ""]`, line 0 is accepted with a span consuming both tokens,
the cursor reaches the end of the token list, and the blank line 1 is
stub-filled with score `0.0`, not `1.0`. -/
theorem claim_C5_counterexample :
    greedyAlign [⟨"ab".toList, 0, 1⟩, ⟨"cd".toList, 1, 2⟩]
        ["ab cd".toList, "".toList] =
      ([⟨0, 0, 2, 1⟩, ⟨1, 2, 2, 0⟩], [1, 0]) ∧
    normalizeText "".toList = [] ∧
    ¬asrTokens [⟨"ab".toList, 0, 1⟩, ⟨"cd".toList, 1, 2⟩] = [] ∧
    ¬(⟨1, 2, 2, 0⟩ : MatchSpan).score = 1 := by
  refine ⟨by set_option maxRecDepth 4000 in decide, rfl, by decide, by decide⟩

/-- Witness for `claim_C5_blank_lines` at a concrete blank line. -/
theorem claim_C5_blank_lines_witness :
    normalizeText "".toList = [] ∧
      greedyLoop ["ab".toList] 1 ["".toList] 0 0 =
        ([⟨0, 0, 0, 1⟩], [1]) := by
  refine ⟨rfl, ?_⟩
  rw [claim_C5_blank_lines.1 ["ab".toList] 1 "".toList [] 0 0 rfl]
  rfl

/-- C2 as stated is false for malformed words: with the single word
`("x", -5, -5)` the clamp `end = min(..., total_dur)` uses the negative
`total_dur = -5`, producing the timed line `(0, 0, 0, -5, "x")` whose
end lies strictly before its start. -/
theorem claim_C2_counterexample :
    wordSpansToTimedLines [⟨"x".toList, -5, -5⟩] ["x".toList] [⟨0, 0, 0, 0⟩]
        (1/50) (2/25) (3/4) =
      some [((0 : Nat), (0 : Nat), (0 : ℚ), (-5 : ℚ), "x".toList)] ∧
    ¬tlStart ((0 : Nat), (0 : Nat), (0 : ℚ), (-5 : ℚ), "x".toList) ≤
      tlEnd ((0 : Nat), (0 : Nat), (0 : ℚ), (-5 : ℚ), "x".toList) := by
  exact ⟨by decide, by decide⟩

/-- C2 (amended): for every non-empty word list whose last word has a
non-negative end time (`total_dur ≥ 0`) and non-negative `min_gap_s`,
the timed lines returned by `word_spans_to_timed_lines` satisfy
`start ≤ end`, `start_{i+1} ≥ end_i - min_gap_s`, monotone
non-decreasing starts and ends, and all times within
`[0, total_dur]`. -/
theorem claim_C2_timeline_invariants :
    ∀ (words : List Word) (lines : List (List Char)) (spans : List MatchSpan)
      (pad gap mind : ℚ) (out : List TLine),
      ¬words = [] → 0 ≤ gap → 0 ≤ totalDur words →
      wordSpansToTimedLines words lines spans pad gap mind = some out →
      (∀ t ∈ out, tlStart t ≤ tlEnd t ∧ 0 ≤ tlStart t ∧
        tlStart t ≤ totalDur words ∧ 0 ≤ tlEnd t ∧
        tlEnd t ≤ totalDur words) ∧
      (∀ (k : Nat) (u v : TLine),
        out.get? k = some u → out.get? (k + 1) = some v →
          tlEnd u - gap ≤ tlStart v ∧ tlStart u ≤ tlStart v ∧
            tlEnd u ≤ tlEnd v) := by
  intro words lines spans pad gap mind out hw hgap htot heq
  unfold wordSpansToTimedLines at heq
  rw [if_neg hw] at heq
  dsimp only at heq
  have hinv := wstlLoop_invariant lines (words.map (·.start))
    (words.map (·.stop)) words.length (totalDur words) pad gap mind
    htot hgap spans 0 0 out le_rfl htot heq
  obtain ⟨hA, _, hC⟩ := hinv
  constructor
  · intro t ht
    obtain ⟨h1, h2, h3, h4, h5⟩ := hA t ht
    have hmax : max (totalDur words - gap) 0 ≤ totalDur words :=
      max_le (by linarith) htot
    exact ⟨h3, h1, le_trans h2 hmax, h4, h5⟩
  · intro k u v hu hv
    obtain ⟨hku, hgu⟩ := List.get?_eq_some.1 hu
    obtain ⟨hkv, hgv⟩ := List.get?_eq_some.1 hv
    have := List.chain'_iff_get.1 hC k (by omega)
    rw [hgu, hgv] at this
    exact this

/-- Witness for `claim_C2_timeline_invariants` at a concrete aligned
instance. -/
theorem claim_C2_timeline_invariants_witness :
    (¬([⟨"hello".toList, 0, 1/2⟩, ⟨"world".toList, 1/2, 1⟩] :
        List Word) = [] ∧
      (0 : ℚ) ≤ 2/25 ∧
      (0 : ℚ) ≤ totalDur [⟨"hello".toList, 0, 1/2⟩,
        ⟨"world".toList, 1/2, 1⟩]) ∧
    (∀ t ∈ [((0 : Nat), (0 : Nat), (2/25 : ℚ), (1 : ℚ),
        "hello world".toList)],
      tlStart t ≤ tlEnd t ∧ 0 ≤ tlStart t ∧
        tlStart t ≤ totalDur [⟨"hello".toList, 0, 1/2⟩,
          ⟨"world".toList, 1/2, 1⟩] ∧ 0 ≤ tlEnd t ∧
        tlEnd t ≤ totalDur [⟨"hello".toList, 0, 1/2⟩,
          ⟨"world".toList, 1/2, 1⟩]) := by
  have heq : wordSpansToTimedLines
      [⟨"hello".toList, 0, 1/2⟩, ⟨"world".toList, 1/2, 1⟩]
      ["hello world".toList] [⟨0, 0, 2, 1⟩] (1/50) (2/25) (3/4) =
      some [((0 : Nat), (0 : Nat), (2/25 : ℚ), (1 : ℚ),
        "hello world".toList)] := by decide
  have h := claim_C2_timeline_invariants
    [⟨"hello".toList, 0, 1/2⟩, ⟨"world".toList, 1/2, 1⟩]
    ["hello world".toList] [⟨0, 0, 2, 1⟩] (1/50) (2/25) (3/4) _
    (by decide) (by norm_num) (by decide) heq
  exact ⟨⟨by decide, by norm_num, by decide⟩, h.1⟩

/-- C9 as stated is false: negative supplied times are not clamped to
zero — the same malformed word `("x", -5, -5)` yields an output end time
of `-5`. -/
theorem claim_C9_counterexample :
    wordSpansToTimedLines [⟨"x".toList, -5, -5⟩] ["x".toList] [⟨0, 0, 0, 0⟩]
        (1/50) (2/25) (3/4) =
      some [((0 : Nat), (0 : Nat), (0 : ℚ), (-5 : ℚ), "x".toList)] ∧
    tlEnd ((0 : Nat), (0 : Nat), (0 : ℚ), (-5 : ℚ), "x".toList) < 0 := by
  exact ⟨by decide, by decide⟩

/-- C9 (amended): the aligners and the materializer raise no exception
(the materializer is total whenever each span's `line_index` indexes into
the lyric lines, as spans produced by `greedy_align_lines_to_words`
always do); malformed words/segments with negative times or `end <
start` are not rejected, but negative times are *not* clamped to zero:
output times are guaranteed non-negative only when the last supplied
word's (resp. segment's) end time is non-negative, with non-negative
`min_gap_s`. -/
theorem claim_C9_no_exceptions :
    (∀ (words : List Word) (lines : List (List Char))
        (spans : List MatchSpan) (pad gap mind : ℚ),
      (∀ sp ∈ spans, sp.line_index < lines.length) →
      ∃ out, wordSpansToTimedLines words lines spans pad gap mind =
        some out) ∧
    (∀ (words : List Word) (lines : List (List Char))
        (spans : List MatchSpan) (pad gap mind : ℚ) (out : List TLine),
      0 ≤ gap → 0 ≤ totalDur words →
      wordSpansToTimedLines words lines spans pad gap mind = some out →
      ∀ t ∈ out, 0 ≤ tlStart t ∧ 0 ≤ tlEnd t) ∧
    (∀ (segs : List Seg) (lines : List (List Char)) (pad gap : ℚ),
      0 ≤ gap → 0 ≤ lastSegEnd segs →
      ∀ t ∈ alignLinesToSegments segs lines pad gap,
        0 ≤ tlStart t ∧ 0 ≤ tlEnd t) := by
  refine ⟨?_, ?_, ?_⟩
  · intro words lines spans pad gap mind hmem
    unfold wordSpansToTimedLines
    split
    · exact ⟨_, rfl⟩
    · exact wstlLoop_total lines _ _ words.length (totalDur words) pad gap
        mind spans 0 0 hmem
  · intro words lines spans pad gap mind out hgap htot heq
    unfold wordSpansToTimedLines at heq
    split at heq
    · rcases Option.some.inj heq with rfl
      exact emergencySpread_nonneg mind lines 0 0 le_rfl
    · dsimp only at heq
      have hinv := wstlLoop_invariant lines (words.map (·.start))
        (words.map (·.stop)) words.length (totalDur words) pad gap mind
        htot hgap spans 0 0 out le_rfl htot heq
      intro t ht
      obtain ⟨h1, _, _, h4, _⟩ := hinv.1 t ht
      exact ⟨h1, h4⟩
  · intro segs lines pad gap hgap hlast
    unfold alignLinesToSegments
    split
    · exact uniformSpreadSegs_nonneg lines 0 0 le_rfl
    · dsimp only
      exact segLoop_nonneg segs segs.length _ pad gap hlast hgap lines 0 0 0
        le_rfl

/-- Witness for `claim_C9_no_exceptions` at concrete inputs (including a
malformed word with `end < start`, which is processed without failure). -/
theorem claim_C9_no_exceptions_witness :
    (∃ out, wordSpansToTimedLines [⟨"x".toList, 3, 1⟩] ["x".toList]
        [⟨0, 0, 1, 0⟩] (1/50) (2/25) (3/4) = some out) ∧
      (∀ t ∈ alignLinesToSegments [⟨"x".toList, 0, 2⟩] ["x".toList]
          (1/50) (2/25),
        0 ≤ tlStart t ∧ 0 ≤ tlEnd t) := by
  constructor
  · exact claim_C9_no_exceptions.1 [⟨"x".toList, 3, 1⟩] ["x".toList]
      [⟨0, 0, 1, 0⟩] (1/50) (2/25) (3/4) (by decide)
  · exact claim_C9_no_exceptions.2.2 [⟨"x".toList, 0, 2⟩] ["x".toList]
      (1/50) (2/25) (by norm_num) (by decide)

end Lyricsync
